import Mathlib

/-!
Shallow embedding of `scripts/extract_rules_from_pdf.py`: the CASS clause
extraction pipeline (token grouping, anchor detection, body harvesting,
paragraph reflow, de-duplication, sorting and the `main` driver), together
with theorems settling the specification claims.

Coordinates (floats in the source) are modelled as rationals; Python
strings are modelled as `String` over their character lists (the inputs of
interest are ASCII).
-/

/- Core's rational arithmetic is `@[irreducible]`, which blocks kernel
evaluation in `decide`; re-expose it for the concrete-input theorems. -/
unseal Rat.add Rat.mul Rat.sub Rat.inv

namespace CassExtract

/-! ### Character helpers (Python semantics, ASCII data) -/

def isSpacePy (c : Char) : Bool :=
  c = ' ' || c = '\t' || c = '\n' || c = '\r' || c = '\x0b' || c = '\x0c'

def isUpperAZ (c : Char) : Bool :=
  decide ('A' ≤ c ∧ c ≤ 'Z')

def isLowerAZ (c : Char) : Bool :=
  decide ('a' ≤ c ∧ c ≤ 'z')

def isAlphaAZ (c : Char) : Bool :=
  isUpperAZ c || isLowerAZ c

/-- Python `\w` (ASCII): letter, digit or underscore. -/
def isWordPy (c : Char) : Bool :=
  isAlphaAZ c || c.isDigit || c = '_'

def lowerChars (l : List Char) : List Char := l.map Char.toLower

def upperChars (l : List Char) : List Char := l.map Char.toUpper

/-- Python `str.upper()`. -/
def upperStr (s : String) : String := String.mk (upperChars s.data)

/-- Python `str.lower()`. -/
def lowerStr (s : String) : String := String.mk (lowerChars s.data)

def stripChars (l : List Char) : List Char :=
  ((l.dropWhile isSpacePy).reverse.dropWhile isSpacePy).reverse

/-- Python `str.strip()`. -/
def stripPy (s : String) : String := String.mk (stripChars s.data)

/-- `pat` starts `s` exactly. -/
def hasPre : List Char → List Char → Bool
  | [], _ => true
  | _ :: _, [] => false
  | p :: ps, c :: cs => p = c && hasPre ps cs

/-- `pat` occurs somewhere inside `s` (Python `in` on strings). -/
def hasSub (pat : List Char) : List Char → Bool
  | [] => pat.isEmpty
  | c :: cs => hasPre pat (c :: cs) || hasSub pat cs

/-- Case-insensitive literal: if `pat` (lower case) is a prefix of `s`
(compared lower-cased), return the remainder. -/
def dropCI (pat : List Char) (s : List Char) : Option (List Char) :=
  match pat, s with
  | [], rest => some rest
  | _ :: _, [] => none
  | p :: ps, c :: cs => if c.toLower = p then dropCI ps cs else none

/-- `s.split()` : split on whitespace runs, no empty pieces. -/
def splitWsAux : List Char → List Char → List (List Char)
  | [], cur => if cur.isEmpty then [] else [cur.reverse]
  | c :: rest, cur =>
    if isSpacePy c then
      if cur.isEmpty then splitWsAux rest [] else cur.reverse :: splitWsAux rest []
    else splitWsAux rest (c :: cur)

def splitWs (s : String) : List String :=
  (splitWsAux s.data []).map String.mk

/-- `s.split(".")` : split at every dot, keeping empty pieces. -/
def splitChars : List Char → List (List Char)
  | [] => [[]]
  | c :: rest =>
    if c = '.' then [] :: splitChars rest
    else
      match splitChars rest with
      | g :: gs => (c :: g) :: gs
      | [] => [[c]]

def splitDots (s : String) : List String :=
  (splitChars s.data).map String.mk

/-- Value of a digit string (used for Python `int` on digit-only input). -/
def digitsVal (l : List Char) : Nat :=
  l.foldl (fun acc c => acc * 10 + (c.toNat - '0'.toNat)) 0

/-- Python `int(s)` restricted to the shapes the pipeline produces:
succeeds exactly on non-empty all-digit strings, `none` models the
`ValueError` raised otherwise. -/
def parseIntPy (s : String) : Option Nat :=
  if s.data ≠ [] ∧ s.data.all Char.isDigit then some (digitsVal s.data) else none

/-! ### Rational helpers (Python `min`/`max`/`abs` on floats) -/

def qmin (a b : ℚ) : ℚ := if a ≤ b then a else b

def qmax (a b : ℚ) : ℚ := if a ≤ b then b else a

def qabs (a : ℚ) : ℚ := if a < 0 then -a else a

def listMaxQ : List ℚ → ℚ
  | [] => 0
  | x :: xs => xs.foldl qmax x

/-! ### Pattern models (the module-level regexes of the source) -/

/-- `CASS_RE = ^CASS$` with `re.I`. -/
def cassMatch (s : String) : Bool := upperStr s = "CASS"

/-- `TYPE_ONLY_RE = ^(R|G|E|BG|C)$` with `re.I`. -/
def typeOnlyMatch (s : String) : Bool :=
  upperStr s = "R" || upperStr s = "G" || upperStr s = "E" ||
  upperStr s = "BG" || upperStr s = "C"

/-- Groups of a successful `ID_TOKEN_RE` match. -/
structure IdGroups where
  chapter : List Char
  sec : List Char
  rule : List Char
  trail : Option (List Char)
  deriving DecidableEq, Repr

/-- The chapter part after its digits: regex `[A-Z]?` followed by a literal
dot (greedy with backtracking). Returns (extra chapter chars, rest). -/
def chapterDot : List Char → Option (List Char × List Char)
  | [] => none
  | c :: rest =>
    if c = '.' then some ([], rest)
    else
      match rest with
      | c2 :: rest2 =>
        if c2 = '.' && isUpperAZ c then some ([c], rest2) else none
      | [] => none

/-- Trail group `([A-Z]{1,2})?$`: consumes the whole remainder or fails. -/
def trailPart : List Char → Option (Option (List Char))
  | [] => some none
  | [a] => if isUpperAZ a then some (some [a]) else none
  | [a, b] => if isUpperAZ a && isUpperAZ b then some (some [a, b]) else none
  | _ => none

/-- Suffix after the rule digits: `(?:-[A-Z]|[A-Z])?` then the trail group,
with Python's greedy backtracking semantics. Returns (extra rule chars,
trail group). -/
def ruleSuffix : List Char → Option (List Char × Option (List Char))
  | [] => some ([], none)
  | c :: r =>
    if c = '-' then
      match r with
      | c2 :: r2 =>
        if isUpperAZ c2 then (trailPart r2).map (fun tr => (['-', c2], tr)) else none
      | [] => none
    else if isUpperAZ c then (trailPart r).map (fun tr => ([c], tr))
    else none

/-- `ID_TOKEN_RE = ^(\d+[A-Z]?)\.(\d+)\.(\d+(?:-[A-Z]|[A-Z])?)([A-Z]{1,2})?$`
with Python's greedy matching (the rule group absorbs a single trailing
letter; the trail group only ever captures letters beyond it). -/
def matchIdToken (l : List Char) : Option IdGroups :=
  let (d1, r1) := l.span Char.isDigit
  if d1 = [] then none else
  match chapterDot r1 with
  | none => none
  | some (ex1, r2) =>
    let (d2, r3) := r2.span Char.isDigit
    if d2 = [] then none else
    match r3 with
    | c3 :: r4 =>
      if c3 = '.' then
        let (d3, r5) := r4.span Char.isDigit
        if d3 = [] then none else
        match ruleSuffix r5 with
        | none => none
        | some (ex3, tr) => some ⟨d1 ++ ex1, d2, d3 ++ ex3, tr⟩
      else none
    | [] => none

/-- `rid = f"{chapter}.{section}.{rule}"`. -/
def mkId (g : IdGroups) : String :=
  String.mk (g.chapter ++ '.' :: g.sec ++ '.' :: g.rule)

/-- `SECTION_RE = ^\s*Section\s*:\s*CASS\s+\d+[A-Z]?\.\d+` with `re.I`
(prefix match, as `re.match` without `$`). -/
def sectionMatch (s : String) : Bool :=
  let t := s.data.dropWhile isSpacePy
  match dropCI "section".data t with
  | none => false
  | some r1 =>
    match (r1.dropWhile isSpacePy) with
    | ':' :: r2 =>
      match dropCI "cass".data (r2.dropWhile isSpacePy) with
      | none => false
      | some r3 =>
        match r3 with
        | c :: r4 =>
          if isSpacePy c then
            let r5 := r4.dropWhile isSpacePy
            let (ds, r6) := r5.span Char.isDigit
            if ds = [] then false
            else
              match chapterDot r6 with
              | none => false
              | some (_, r7) => !(r7.takeWhile Char.isDigit).isEmpty
          else false
        | [] => false
    | _ => false

/-- `norm_type`: `"R" if (t or "").upper() == "R" else "G"`. -/
def normType (t : Option String) : String :=
  if upperStr (t.getD "") = "R" then "R" else "G"

/-! ### Furniture filters -/

/-- `DROP_LINE_RE` : `^\s*(www.handbook.fca.org.uk|FCA \d{4}/\d+|Page \d+ of \d+)\s*$`
with `re.I` (first alternative's dots are literal-escaped in the source). -/
def dropLineMatch (s : String) : Bool :=
  let t := s.data.dropWhile isSpacePy
  let allSp := fun (r : List Char) => r.all isSpacePy
  let alt1 :=
    match dropCI "www.handbook.fca.org.uk".data t with
    | some r => allSp r
    | none => false
  let alt2 :=
    match dropCI "fca".data t with
    | none => false
    | some r1 =>
      match r1 with
      | c :: r2 =>
        if isSpacePy c then
          let r3 := r2.dropWhile isSpacePy
          match r3 with
          | a :: b :: c2 :: d :: '/' :: r4 =>
            a.isDigit && b.isDigit && c2.isDigit && d.isDigit &&
            (let (ds, r5) := r4.span Char.isDigit
             !ds.isEmpty && allSp r5)
          | _ => false
        else false
      | [] => false
  let alt3 :=
    match dropCI "page".data t with
    | none => false
    | some r1 =>
      match r1 with
      | c :: r2 =>
        if isSpacePy c then
          let r3 := r2.dropWhile isSpacePy
          let (ds, r4) := r3.span Char.isDigit
          if ds.isEmpty then false
          else
            match r4 with
            | c2 :: r5 =>
              if isSpacePy c2 then
                match dropCI "of".data (r5.dropWhile isSpacePy) with
                | none => false
                | some r6 =>
                  match r6 with
                  | c3 :: r7 =>
                    if isSpacePy c3 then
                      let (ds2, r8) := (r7.dropWhile isSpacePy).span Char.isDigit
                      !ds2.isEmpty && allSp r8
                    else false
                  | [] => false
              else false
            | [] => false
        else false
      | [] => false
  alt1 || alt2 || alt3

def monthNames : List String :=
  ["january", "february", "march", "april", "may", "june", "july",
   "august", "september", "october", "november", "december"]

/-- After a month name: `\s+20\d{2}\b`. -/
def monthYearTail (r : List Char) : Bool :=
  match r with
  | c :: r1 =>
    if isSpacePy c then
      match r1.dropWhile isSpacePy with
      | '2' :: '0' :: a :: b :: rest =>
        a.isDigit && b.isDigit &&
        (match rest with
         | [] => true
         | d :: _ => !isWordPy d)
      | _ => false
    else false
  | [] => false

/-- A month-name-then-year match starting exactly here (month at a word
boundary). -/
def monthYearHere (s : List Char) : Bool :=
  monthNames.any fun m =>
    match dropCI m.data s with
    | some r =>
      -- `\b` inside the month name is not needed: matching continues with `\s+`
      monthYearTail r
    | none => false

/-- `FOOTER_DATE_RE.search`: `\b(January|…|December)\s+20\d{2}\b`, `re.I`. -/
def footerDateSearch : Option Char → List Char → Bool
  | prev, [] =>
    let _ := prev
    false
  | prev, c :: rest =>
    ((match prev with
      | none => true
      | some p => !isWordPy p) && monthYearHere (c :: rest)) ||
    footerDateSearch (some c) rest

def dropHints : List String :=
  ["Actions for damages", "Section 138D", "Rights of Action",
   "For private person", "Removed?", "For other person"]

/-- `any(h.lower() in s.lower() for h in DROP_HINTS)`. -/
def hasDropHint (s : String) : Bool :=
  dropHints.any fun h => hasSub (lowerChars h.data) (lowerChars s.data)

/-- `re.fullmatch(r"[.\-–—\s]+", s)`. -/
def isLeader (s : String) : Bool :=
  !s.data.isEmpty &&
  s.data.all fun c => c = '.' || c = '-' || c = '–' || c = '—' || isSpacePy c

/-- `should_drop_line_text`. -/
def shouldDropLineText (s : String) : Bool :=
  if (stripPy s).data.isEmpty then true
  else if dropLineMatch s then true
  else if footerDateSearch none s.data then true
  else if hasDropHint s then true
  else if isLeader s then true
  else false

/-! ### Tokens and lines -/

structure Tok where
  text : String
  x0 : ℚ
  x1 : ℚ
  top : ℚ
  bottom : ℚ
  doctop : ℚ
  fontname : String
  size : ℚ
  deriving DecidableEq, Repr

structure Line where
  text : String
  x0 : ℚ
  x1 : ℚ
  top : ℚ
  bottom : ℚ
  doctop : ℚ
  fonts : List String
  sizes : List ℚ
  deriving DecidableEq, Repr

/-- Stable insertion sort by a strict `lt` (model of Python's stable
`sorted`): each element is placed before every element it is not
greater-than-or-equal to, keeping input order on ties. -/
def insSorted (lt : α → α → Bool) (x : α) : List α → List α
  | [] => [x]
  | y :: ys => if lt y x then y :: insSorted lt x ys else x :: y :: ys

def sortStable (lt : α → α → Bool) : List α → List α
  | [] => []
  | x :: xs => insSorted lt x (sortStable lt xs)

/-- `sorted(words, key=lambda w: (w["doctop"], w["x0"]))`. -/
def tokLt (a b : Tok) : Bool :=
  decide (a.doctop < b.doctop ∨ (a.doctop = b.doctop ∧ a.x0 < b.x0))

def sortToks (ws : List Tok) : List Tok := sortStable tokLt ws

/-- `sorted(ws, key=lambda w: w["x0"])` inside `_pack_line`. -/
def tokX0Lt (a b : Tok) : Bool := decide (a.x0 < b.x0)

/-- Python `" ".join(...)` over token texts. -/
def joinSpace : List String → String
  | [] => ""
  | [s] => s
  | s :: rest => s ++ " " ++ joinSpace rest

/-- `_pack_line` on a non-empty token group (`w` is the first token). -/
def packLine (w : Tok) (ws : List Tok) : Line :=
  let sorted := sortStable tokX0Lt (w :: ws)
  { text := stripPy (joinSpace (sorted.map Tok.text))
    x0 := (sorted.map Tok.x0).foldl qmin w.x0
    x1 := (sorted.map Tok.x1).foldl qmax w.x1
    top := (sorted.map Tok.top).foldl qmin w.top
    bottom := (sorted.map Tok.bottom).foldl qmax w.bottom
    doctop := (sorted.map Tok.doctop).foldl qmin w.doctop
    fonts := sorted.map Tok.fontname
    sizes := sorted.map Tok.size }

/-- Pack a reversed accumulated group (as gathered by the grouping loop). -/
def packGroup (cur : List Tok) : List Line :=
  match cur.reverse with
  | [] => []
  | c :: cs => [packLine c cs]

/-- Grouping loop of `words_to_lines`: `cur` is the current group in
reverse order, `curTop` the running minimum top (the Python
`cur_top = min(cur_top, top)`). -/
def groupLines (ytol : ℚ) : List Tok → List Tok → ℚ → List Line
  | [], cur, _ => packGroup cur
  | t :: rest, cur, curTop =>
    if qabs (t.top - curTop) ≤ ytol then
      groupLines ytol rest (t :: cur) (qmin curTop t.top)
    else
      packGroup cur ++ groupLines ytol rest [t] t.top

def lineDoctopLt (a b : Line) : Bool := decide (a.doctop < b.doctop)

/-- `words_to_lines`: sort tokens by (doctop, x0), group into visual
lines by top proximity, then sort the lines by doctop. -/
def wordsToLines (words : List Tok) (ytol : ℚ) : List Line :=
  match sortToks words with
  | [] => []
  | w :: ws => sortStable lineDoctopLt (groupLines ytol ws [w] w.top)

def lineIsBold (ln : Line) : Bool :=
  ln.fonts.any fun f => hasSub "Bold".data f.data

def lineMaxSize (ln : Line) : ℚ :=
  match ln.sizes with
  | [] => 0
  | s :: ss => ss.foldl qmax s

/-! ### Heading and sentence heuristics -/

/-- `re.match(r"^[RG]\s+[A-Z][a-z]+(?:\b|:)", t)`: after the maximal
lowercase run the next character must be absent or a non-word character
(the `:` alternative is subsumed by the word boundary). -/
def headingStubMatch (t : List Char) : Bool :=
  match t with
  | c :: rest =>
    (c = 'R' || c = 'G') &&
    (match rest with
     | c1 :: r1 =>
       isSpacePy c1 &&
       (match r1.dropWhile isSpacePy with
        | u :: r2 =>
          isUpperAZ u &&
          (let (ls, r3) := r2.span isLowerAZ
           !ls.isEmpty &&
           (match r3 with
            | [] => true
            | d :: _ => !isWordPy d))
        | [] => false)
     | [] => false)
  | [] => false

/-- `looks_like_heading`. -/
def looksLikeHeading (ln : Line) (headingSizeMin : ℚ) : Bool :=
  let t := stripPy ln.text
  if t.data.isEmpty then false
  else
    let isBig := decide (headingSizeMin ≤ lineMaxSize ln)
    let isBold := lineIsBold ln
    if headingStubMatch t.data && decide (t.length ≤ 80) &&
       !(t.data.any fun c => c = '.' || c = ';') then true
    else if isBig && isBold then
      let letters := t.data.filter isAlphaAZ
      if !letters.isEmpty && letters.all isUpperAZ &&
         decide (3 ≤ letters.length ∧ letters.length ≤ 40) then true
      else if decide (t.length ≤ 80) &&
              !(t.data.any fun c => c = '.' || c = ';' || c = ':') then true
      else false
    else false

/-- `looks_sentence_like`. -/
def looksSentenceLike (text : String) : Bool :=
  let t := stripPy text
  if t.data.isEmpty then false
  else
    (t.data.any isLowerAZ) &&
    ((t.data.any fun c => c = '.' || c = ';' || c = ':' || c = ')') ||
     decide (60 < t.length))

/-! ### Paragraph reflow -/

/-- `LIST_START_RE` (verbose, `re.I`), matched in full against one
whitespace-free token: `(\d+)`, `([a-z])`, `\d+\.\s`, or a roman-numeral
`(i…)`. -/
def listStartMatch (t : List Char) : Bool :=
  let isRoman := fun (c : Char) =>
    let l := c.toLower
    l = 'i' || l = 'v' || l = 'x' || l = 'l' || l = 'c' || l = 'd' || l = 'm'
  let alt1 :=
    match t with
    | '(' :: rest =>
      let (ds, r) := rest.span Char.isDigit
      !ds.isEmpty && r = [')']
    | _ => false
  let alt2 :=
    match t with
    | ['(', c, ')'] => isAlphaAZ c
    | _ => false
  let alt3 :=
    let (ds, r) := t.span Char.isDigit
    !ds.isEmpty &&
    (match r with
     | ['.', w] => isSpacePy w
     | _ => false)
  let alt4 :=
    match t with
    | '(' :: rest =>
      let (rs, r) := rest.span isRoman
      !rs.isEmpty && r = [')']
    | _ => false
  alt1 || alt2 || alt3 || alt4

/-- `dehyphen`: `re.sub(r"(\w)-\s*$", r"\1", s)` — if the string ends in a
word character, a hyphen and trailing whitespace, drop the hyphen and that
whitespace; otherwise unchanged. -/
def dehyphen (s : String) : String :=
  match (s.data.reverse.dropWhile isSpacePy) with
  | '-' :: c :: rest =>
    if isWordPy c then String.mk (c :: rest).reverse else s
  | _ => s

/-- `commit`: flush the accumulated paragraph if non-blank. -/
def commitAcc (buf : List String) (acc : String) : List String :=
  if (stripPy acc).data.isEmpty then buf else buf ++ [stripPy acc]

/-- The main reflow loop over the cleaned, blank-collapsed strings. -/
def reflowLoop : List String → List String → String → List String
  | [], buf, acc => commitAcc buf acc
  | s :: rest, buf, acc =>
    if s.data.isEmpty then reflowLoop rest (commitAcc buf acc) ""
    else
      let s1 := dehyphen s
      let firstTok := (splitWs s1).headD ""
      if listStartMatch firstTok.data then reflowLoop rest (commitAcc buf acc) s1
      else if acc.data.reverse.headD ' ' = ':' then
        reflowLoop rest (commitAcc buf acc) s1
      else if acc.data.isEmpty then reflowLoop rest buf s1
      else reflowLoop rest buf (acc ++ " " ++ s1)

/-- `"\n\n".join(buf)`. -/
def joinPar : List String → String
  | [] => ""
  | [s] => s
  | s :: rest => s ++ "\n\n" ++ joinPar rest

/-- Blank-collapsing pass (`tmp` construction): drop-filtered lines are
stripped; consecutive blanks collapse to one empty entry. -/
def collapseBlanks : List String → Bool → List String
  | [], _ => []
  | s :: rest, lastBlank =>
    if (stripPy s).data.isEmpty then
      if lastBlank then collapseBlanks rest true
      else "" :: collapseBlanks rest true
    else stripPy s :: collapseBlanks rest false

/-- `reflow_paragraphs_from_lines`. -/
def reflowParagraphsFromLines (lines : List Line) : String :=
  let cleaned := (lines.filter fun ln => !shouldDropLineText ln.text).map Line.text
  let tmp := collapseBlanks cleaned false
  joinPar (reflowLoop tmp [] "")

/-! ### Anchor detection -/

structure Page where
  width : ℚ
  words : List Tok
  deriving DecidableEq, Repr

structure Params where
  leftMaxRatio : ℚ
  rightMinRatio : ℚ
  yTol : ℚ
  typeDx : ℚ
  typeDy : ℚ
  bodyMargin : ℚ
  headingSizeMin : ℚ
  minBodyLen : Nat
  deriving DecidableEq, Repr

/-- CLI defaults of the source. -/
def defaultParams : Params :=
  { leftMaxRatio := 46/100, rightMinRatio := 42/100, yTol := 3, typeDx := 18,
    typeDy := 4, bodyMargin := 14, headingSizeMin := 12, minBodyLen := 40 }

/-- An anchor; section anchors carry empty `id`/`type` (the source stores
no such keys for them, and never reads them). -/
structure Anchor where
  kind : String
  id : String
  type : String
  page : Nat
  doctop : ℚ
  x1 : ℚ
  deriving DecidableEq, Repr

def typeLetters : List String := ["R", "G", "E", "BG", "C"]

/-- Same-line adjacent type token test (inside `detect_anchors`). -/
def sameLineTypeCond (leftLimit : ℚ) (p : Params) (cand nxt : Tok) : Bool :=
  decide (nxt.x0 < leftLimit) &&
  decide (qabs (nxt.doctop - cand.doctop) ≤ p.typeDy) &&
  decide (0 ≤ nxt.x0 - cand.x1 ∧ nxt.x0 - cand.x1 ≤ p.typeDx) &&
  typeOnlyMatch nxt.text

/-- Next-very-close-line fallback type test (inside `detect_anchors`). -/
def nextLineTypeCond (leftLimit : ℚ) (p : Params) (cand nxt : Tok) : Bool :=
  decide (nxt.x0 < leftLimit) &&
  decide (0 < nxt.doctop - cand.doctop ∧ nxt.doctop - cand.doctop ≤ p.typeDy) &&
  typeOnlyMatch nxt.text

/-- Build the rule anchor for a matched ID token `cand` (with the `CASS`
token `t`, the following token `nxt`, and regex groups `g`), following the
source's resolution chain: same-line adjacent type first, then the glued
trail, then the next-line fallback, else the `G` default via `norm_type`. -/
def mkAnchorFor (pi : Nat) (leftLimit : ℚ) (p : Params) (t cand : Tok)
    (nxt : Option Tok) (g : IdGroups) : Anchor :=
  let rid := mkId g
  let startX0 := cand.x1
  let step1 : Option String × ℚ :=
    match nxt with
    | some n =>
      if sameLineTypeCond leftLimit p cand n then (some (upperStr n.text), qmax startX0 n.x1)
      else (none, startX0)
    | none => (none, startX0)
  let step2 : Option String × ℚ :=
    match step1.1 with
    | some _ => step1
    | none =>
      match g.trail with
      | some tr =>
        if (upperStr (String.mk tr)) ∈ typeLetters then (some (upperStr (String.mk tr)), step1.2)
        else (none, step1.2)
      | none => (none, step1.2)
  let step3 : Option String × ℚ :=
    match step2.1 with
    | some _ => step2
    | none =>
      match nxt with
      | some n =>
        if nextLineTypeCond leftLimit p cand n then (some (upperStr n.text), qmax step2.2 n.x1)
        else (none, step2.2)
      | none => (none, step2.2)
  { kind := "rule", id := rid, type := normType step3.1, page := pi,
    doctop := qmin t.doctop cand.doctop, x1 := step3.2 }

/-- The inner `j` loop of `detect_anchors`: scan forward from the token
after `t` while still inside the y-tolerance band, stopping at the
left-gutter limit, and build an anchor at the first ID-token match. -/
def seekId (pi : Nat) (leftLimit : ℚ) (p : Params) (t : Tok) :
    List Tok → Option Anchor
  | [] => none
  | cand :: rest =>
    if qabs (cand.doctop - t.doctop) ≤ p.yTol then
      if leftLimit ≤ cand.x0 then none
      else
        match matchIdToken cand.text.data with
        | some g => some (mkAnchorFor pi leftLimit p t cand rest.head? g)
        | none => seekId pi leftLimit p t rest
    else none

/-- The outer token loop of `detect_anchors` for one page. -/
def scanToks (pi : Nat) (leftLimit : ℚ) (p : Params) : List Tok → List Anchor
  | [] => []
  | t :: rest =>
    if leftLimit ≤ t.x0 then scanToks pi leftLimit p rest
    else if cassMatch t.text then
      match seekId pi leftLimit p t rest with
      | some a => a :: scanToks pi leftLimit p rest
      | none => scanToks pi leftLimit p rest
    else if sectionMatch t.text && decide (t.x0 < leftLimit) then
      { kind := "section", id := "", type := "", page := pi,
        doctop := t.doctop, x1 := t.x1 } :: scanToks pi leftLimit p rest
    else scanToks pi leftLimit p rest

def enumFromNat (i : Nat) : List α → List (Nat × α)
  | [] => []
  | x :: xs => (i, x) :: enumFromNat (i + 1) xs

def anchorLt (a b : Anchor) : Bool :=
  decide (a.page < b.page ∨ (a.page = b.page ∧ a.doctop < b.doctop))

/-- `detect_anchors`. -/
def detectAnchors (pages : List Page) (p : Params) : List Anchor :=
  sortStable anchorLt
    (((enumFromNat 0 pages).map fun pg =>
        scanToks pg.1 (pg.2.width * p.leftMaxRatio) p (sortToks pg.2.words)).flatten)

/-! ### Body harvesting -/

/-- An output clause record (the YAML placeholders `title`, `summary`,
`risk_ids`, `default_control_ids`, `applicability_conditions` are constant
`None`/`[]` in the source and omitted). -/
structure RecR where
  id : String
  chapter : String
  type : String
  text : String
  display : String
  deriving DecidableEq, Repr

def recKey (r : RecR) : String × String := (r.id, r.type)

abbrev EMap := List ((String × String) × RecR)

/-- Association-list lookup modelling `dict.get`. -/
def findVal (k : String × String) : EMap → Option RecR
  | [] => none
  | e :: rest => if e.1 = k then some e.2 else findVal k rest

/-- In-place value replacement at a key (Python `dict[k] = v` on an
existing key keeps its position). -/
def setVal (m : EMap) (k : String × String) (v : RecR) : EMap :=
  m.map fun e => if e.1 = k then (k, v) else e

/-- The longer-text-wins insertion used both at the end of
`harvest_bodies` and in the cross-file merge of `main`. -/
def insLonger (m : EMap) (k : String × String) (v : RecR) : EMap :=
  match findVal k m with
  | none => m ++ [(k, v)]
  | some prev => if prev.text.length < v.text.length then setVal m k v else m

/-- The record built at the insertion site of `harvest_bodies`. -/
def mkRec (a : Anchor) (text : String) : RecR :=
  { id := a.id, chapter := (splitDots a.id).headD "", type := a.type,
    text := text, display := "CASS " ++ a.id }

/-- The `end_page == start_page and ln["doctop"] >= end_y` break test:
`endSame` is `some end_y` exactly when the boundary lies on the start page
(`none` both for a later-page boundary and for the `float("inf")`
final-anchor case, where the break can never fire). -/
def pastEnd (endSame : Option ℚ) (d : ℚ) : Bool :=
  match endSame with
  | some e => decide (e ≤ d)
  | none => false

/-- Start-page collection loop (with the `first_kept` flag). -/
def collectStartPage (startY : ℚ) (endSame : Option ℚ) (startBar hmin : ℚ) :
    List Line → Bool → List Line
  | [], _ => []
  | ln :: rest, firstKept =>
    if ln.doctop < startY then collectStartPage startY endSame startBar hmin rest firstKept
    else if pastEnd endSame ln.doctop then []
    else if ln.x0 ≤ startBar then collectStartPage startY endSame startBar hmin rest firstKept
    else if shouldDropLineText ln.text then
      collectStartPage startY endSame startBar hmin rest firstKept
    else if looksLikeHeading ln hmin then
      if !firstKept && looksSentenceLike ln.text then
        ln :: collectStartPage startY endSame startBar hmin rest true
      else collectStartPage startY endSame startBar hmin rest firstKept
    else ln :: collectStartPage startY endSame startBar hmin rest true

/-- Full intervening spill page: right half only, furniture and headings
dropped. -/
def collectMidPage (rightMin hmin : ℚ) (lines : List Line) : List Line :=
  lines.filter fun ln =>
    decide (rightMin ≤ ln.x0) && !shouldDropLineText ln.text && !looksLikeHeading ln hmin

/-- End page of a spill: stop at the boundary's doctop. -/
def collectEndPage (endY rightMin hmin : ℚ) : List Line → List Line
  | [] => []
  | ln :: rest =>
    if endY ≤ ln.doctop then []
    else if ln.x0 < rightMin then collectEndPage endY rightMin hmin rest
    else if shouldDropLineText ln.text || looksLikeHeading ln hmin then
      collectEndPage endY rightMin hmin rest
    else ln :: collectEndPage endY rightMin hmin rest

/-- Page range `range(start+1, end)` for the intervening spill pages. -/
def midPages (startPage endPage : Nat) : List Nat :=
  (List.range (endPage - (startPage + 1))).map (· + (startPage + 1))

/-- The raw body lines collected for anchor `a` with following boundary
`next` (the source's `raw_lines`). -/
def rawLinesFor (pageLines : List (List Line)) (widths : List ℚ) (p : Params)
    (a : Anchor) (next : Option Anchor) : List Line :=
  let startPage := a.page
  let startY := a.doctop
  let endPair : Nat × Option ℚ :=
    match next with
    | some b => (b.page, some b.doctop)
    | none => (startPage, none)
  let endPage := endPair.1
  let endSame : Option ℚ := if endPage = startPage then endPair.2 else none
  let startBar := a.x1 + p.bodyMargin
  let startLines :=
    collectStartPage startY endSame startBar p.headingSizeMin
      (pageLines.getD startPage []) false
  if startPage < endPage then
    startLines ++
    ((midPages startPage endPage).map fun pg =>
       collectMidPage ((widths.getD pg 0) * p.rightMinRatio) p.headingSizeMin
         (pageLines.getD pg [])).flatten ++
    (match endPair.2 with
     | some endY =>
       collectEndPage endY ((widths.getD endPage 0) * p.rightMinRatio)
         p.headingSizeMin (pageLines.getD endPage [])
     | none => [])
  else startLines

/-- The record candidate for one anchor: `none` when the anchor is not a
rule anchor or the reflowed text is below the minimum length. -/
def anchorCandidate (pageLines : List (List Line)) (widths : List ℚ)
    (p : Params) (a : Anchor) (next : Option Anchor) : Option RecR :=
  if a.kind = "rule" then
    let text := stripPy (reflowParagraphsFromLines (rawLinesFor pageLines widths p a next))
    if text.length < p.minBodyLen then none
    else some (mkRec a text)
  else none

/-- One iteration of the harvest loop. -/
def harvestStep (pageLines : List (List Line)) (widths : List ℚ) (p : Params)
    (m : EMap) (a : Anchor) (next : Option Anchor) : EMap :=
  match anchorCandidate pageLines widths p a next with
  | none => m
  | some r => insLonger m (recKey r) r

def harvestGo (pageLines : List (List Line)) (widths : List ℚ) (p : Params) :
    List Anchor → EMap → EMap
  | [], m => m
  | a :: rest, m =>
    harvestGo pageLines widths p rest (harvestStep pageLines widths p m a rest.head?)

def pageLinesOf (pages : List Page) (p : Params) : List (List Line) :=
  pages.map fun pg => wordsToLines (sortToks pg.words) p.yTol

def widthsOf (pages : List Page) : List ℚ := pages.map Page.width

/-- `harvest_bodies`. -/
def harvestBodies (pages : List Page) (anchors : List Anchor) (p : Params) : EMap :=
  harvestGo (pageLinesOf pages p) (widthsOf pages) p anchors []

/-- The stream of records that reach the insertion site of
`harvest_bodies` (in loop order), before de-duplication. -/
def harvestRecsGo (pageLines : List (List Line)) (widths : List ℚ) (p : Params) :
    List Anchor → List RecR
  | [] => []
  | a :: rest =>
    (match anchorCandidate pageLines widths p a rest.head? with
     | none => []
     | some r => [r]) ++ harvestRecsGo pageLines widths p rest

def harvestRecs (pages : List Page) (anchors : List Anchor) (p : Params) : List RecR :=
  harvestRecsGo (pageLinesOf pages p) (widthsOf pages) p anchors

/-! ### Sorting and the `main` driver -/

def chapterOrderList : List String := ["1", "1A", "3", "5", "6", "7"]

def chapIdxGo (c : String) : List String → Nat → Nat
  | [], _ => 99
  | x :: xs, i => if x = c then i else chapIdxGo c xs (i + 1)

/-- `CHAPTER_ORDER.index(chap) if chap in CHAPTER_ORDER else 99`. -/
def chapIdx (c : String) : Nat := chapIdxGo c chapterOrderList 0

abbrev SKey := Nat × String × Nat × Nat × String × Nat

/-- `sort_key`; `none` models the exceptions it can raise (`ValueError`
from unpacking a non-3-way split or from `int` on a non-numeric section). -/
def sortKeySafe (rec : RecR) : Option SKey :=
  let ci := chapIdx rec.chapter
  match splitDots rec.id with
  | [a, b, c] =>
    match parseIntPy b with
    | some sec =>
      some (ci, a, sec, digitsVal (c.data.filter Char.isDigit),
            String.mk (c.data.filter fun ch => !ch.isDigit),
            if rec.type = "R" then 0 else 1)
    | none => none
  | _ => none

def sortKeyD (rec : RecR) : SKey := (sortKeySafe rec).getD (99, "", 0, 0, "", 0)

def strLtB (a b : String) : Bool := decide (a < b)

def skeyLt (a b : SKey) : Bool :=
  decide (a.1 < b.1) ||
  (decide (a.1 = b.1) &&
   (strLtB a.2.1 b.2.1 ||
    (decide (a.2.1 = b.2.1) &&
     (decide (a.2.2.1 < b.2.2.1) ||
      (decide (a.2.2.1 = b.2.2.1) &&
       (decide (a.2.2.2.1 < b.2.2.2.1) ||
        (decide (a.2.2.2.1 = b.2.2.2.1) &&
         (strLtB a.2.2.2.2.1 b.2.2.2.2.1 ||
          (decide (a.2.2.2.2.1 = b.2.2.2.2.1) &&
           decide (a.2.2.2.2.2 < b.2.2.2.2.2))))))))))

def recLt (a b : RecR) : Bool := skeyLt (sortKeyD a) (sortKeyD b)

/-- One input file: either missing on disk or a list of pages. -/
inductive FileInput where
  | missing : FileInput
  | present : List Page → FileInput
  deriving DecidableEq, Repr

/-- Outcome of a run of `main`: `wrote` is whether the output file is
written and `success` the process exit status — the source writes and
exits 0 unconditionally once argument parsing succeeds. -/
structure RunResult where
  warnings : List String
  wrote : Bool
  success : Bool
  items : List RecR
  deriving DecidableEq, Repr

def mergeGo (m : EMap) : List ((String × String) × RecR) → EMap
  | [] => m
  | e :: rest => mergeGo (insLonger m e.1 e.2) rest

/-- The per-file loop of `main`. -/
def processFile (p : Params) (acc : EMap × List String) (f : FileInput) :
    EMap × List String :=
  match f with
  | .missing => (acc.1, acc.2 ++ ["missing input"])
  | .present pages =>
    let anchors := detectAnchors pages p
    let warns := if anchors.isEmpty then acc.2 ++ ["no anchors found"] else acc.2
    let bodies := harvestBodies pages anchors p
    (mergeGo acc.1 bodies, warns)

def processFiles (p : Params) : List FileInput → EMap × List String → EMap × List String
  | [], acc => acc
  | f :: rest, acc => processFiles p rest (processFile p acc f)

/-- `main` (after CLI parsing): warn-and-continue on missing files and
empty anchor sets, merge with longer-text-wins, sort, always write. -/
def mainRun (p : Params) (files : List FileInput) : RunResult :=
  let res := processFiles p files ([], [])
  { warnings := res.2, wrote := true, success := true,
    items := sortStable recLt (res.1.map Prod.snd) }

/-! ### Derived views used by the claims -/

/-- The pre-deduplication record stream of one input file. -/
def fileStream (p : Params) : FileInput → List RecR
  | .missing => []
  | .present pages => harvestRecs pages (detectAnchors pages p) p

/-- All records harvested across the input files, in processing order. -/
def allStream (p : Params) (files : List FileInput) : List RecR :=
  (files.map (fileStream p)).flatten

def firstSome (a b : Option α) : Option α :=
  match a with
  | some x => some x
  | none => b

/-- The same-line candidate type marker the code tests first. -/
def sameLineTokOf (leftLimit : ℚ) (p : Params) (cand : Tok) (nxt : Option Tok) :
    Option String :=
  match nxt with
  | some n => if sameLineTypeCond leftLimit p cand n then some (upperStr n.text) else none
  | none => none

/-- The glued-trail candidate type marker. -/
def gluedTrailOf (g : IdGroups) : Option String :=
  match g.trail with
  | some tr =>
    if (upperStr (String.mk tr)) ∈ typeLetters then some (upperStr (String.mk tr)) else none
  | none => none

/-- The next-line fallback candidate type marker. -/
def nextLineTokOf (leftLimit : ℚ) (p : Params) (cand : Tok) (nxt : Option Tok) :
    Option String :=
  match nxt with
  | some n => if nextLineTypeCond leftLimit p cand n then some (upperStr n.text) else none
  | none => none

/-- Modelled from the claim's wording (claim C3 / spec §4.3): resolution
order glued trail first, then same-line token, then next-line token, then
the `G` default, with non-R markers normalising to `G`. -/
def claimTypeResolution (glued sameLine nextLine : Option String) : String :=
  normType (firstSome glued (firstSome sameLine nextLine))

/-- The resolution order the code actually implements: same-line token
first, then glued trail, then next-line token, then the `G` default. -/
def codeTypeResolution (sameLine glued nextLine : Option String) : String :=
  normType (firstSome sameLine (firstSome glued nextLine))

/-! Grammar predicates for the identifier segments (claim C10): chapter is
digits with an optional trailing capital, section is digits, rule is
digits with an optional capital or hyphen-capital suffix. -/

def chapterOKb (l : List Char) : Bool :=
  let (ds, r) := l.span Char.isDigit
  !ds.isEmpty &&
  (match r with
   | [] => true
   | [c] => isUpperAZ c
   | _ => false)

def sectionOKb (l : List Char) : Bool :=
  !l.isEmpty && l.all Char.isDigit

def ruleOKb (l : List Char) : Bool :=
  let (ds, r) := l.span Char.isDigit
  !ds.isEmpty &&
  (match r with
   | [] => true
   | [c] => isUpperAZ c
   | [c1, c2] => c1 = '-' && isUpperAZ c2
   | _ => false)

/-! ### Concrete fixtures for witnesses and counterexamples -/

def fixTok (text : String) (x0 x1 top doctop : ℚ) : Tok :=
  { text := text, x0 := x0, x1 := x1, top := top, bottom := top + 10,
    doctop := doctop, fontname := "Reg", size := 10 }

def fixParams : Params :=
  { leftMaxRatio := 1/4, rightMinRatio := 2/5, yTol := 3, typeDx := 18,
    typeDy := 4, bodyMargin := 14, headingSizeMin := 12, minBodyLen := 40 }

/-- One page with a left-gutter `CASS 1.2.2R` anchor and a two-line body
in the right column. -/
def pgMain : Page :=
  { width := 200, words :=
      [fixTok "CASS" 10 30 0 0,
       fixTok "1.2.2R" 32 45 0 0,
       fixTok "the firm must keep adequate records of" 70 150 20 20,
       fixTok "all client money balances at all times." 70 150 32 32] }

/-- A glued `BG` trail together with an adjacent standalone `R` token. -/
def pgGlued : Page :=
  { width := 200, words :=
      [fixTok "CASS" 10 30 0 0, fixTok "1.2.2BG" 32 45 0 0, fixTok "R" 46 48 0 0] }

/-- `CASS` on one line, the identifier alone on the following line. -/
def pgOwnLine : Page :=
  { width := 200, words :=
      [fixTok "CASS" 10 30 0 0, fixTok "1.2.2" 10 25 12 12] }

/-- `CASS` and the identifier on the same line. -/
def pgSameLine : Page :=
  { width := 200, words :=
      [fixTok "CASS" 10 30 0 0, fixTok "1.2.2" 32 45 0 0] }

def fixLine (text : String) (doctop : ℚ) : Line :=
  { text := text, x0 := 70, x1 := 150, top := doctop, bottom := doctop + 10,
    doctop := doctop, fonts := ["Reg"], sizes := [10] }

/-- The record the pipeline produces from `pgMain`. -/
def recMain : RecR :=
  { id := "1.2.2R", chapter := "1", type := "G",
    text := "the firm must keep adequate records of all client money balances at all times.",
    display := "CASS 1.2.2R" }

def anchA : Anchor :=
  { kind := "rule", id := "1.2.2", type := "G", page := 0, doctop := 0, x1 := 45 }

def anchB : Anchor :=
  { kind := "rule", id := "1.2.3", type := "G", page := 0, doctop := 100, x1 := 45 }

def fixRecA : RecR :=
  { id := "1.2.2", chapter := "1", type := "G", text := "first harvested text!",
    display := "CASS 1.2.2" }

def fixRecB : RecR :=
  { id := "1.2.2", chapter := "1", type := "G", text := "later same-length txt",
    display := "CASS 1.2.2" }

/-! ### Invariant predicates for the de-duplication proofs -/

/-- `v` dominates (is at least as long as) every record of `rs` that
shares the key `k`. -/
def DomRec (v : RecR) (k : String × String) (rs : List RecR) : Prop :=
  ∀ r ∈ rs, recKey r = k → r.text.length ≤ v.text.length

/-- The de-duplication invariant: distinct keys, keys matching their
record, every entry drawn from the processed stream `rs` and dominating
its key class, and every processed record's key present. -/
def GoodMap (m : EMap) (rs : List RecR) : Prop :=
  (m.map Prod.fst).Nodup ∧
  (∀ e ∈ m, e.1 = recKey e.2) ∧
  (∀ e ∈ m, e.2 ∈ rs ∧ DomRec e.2 e.1 rs) ∧
  (∀ r ∈ rs, ∃ e ∈ m, e.1 = recKey r)

/-- Key-implicit insertion (how `harvest_bodies` inserts its records). -/
def insRec (m : EMap) (r : RecR) : EMap := insLonger m (recKey r) r

/-! ### Body boundary lemmas (claim C1) -/

theorem mem_collectStartPage {startY endY startBar hmin : ℚ}
    {lines : List Line} {fk : Bool} {ln : Line}
    (h : ln ∈ collectStartPage startY (some endY) startBar hmin lines fk) :
    startBar < ln.x0 ∧ startY ≤ ln.doctop ∧ ln.doctop < endY := by
  induction lines generalizing fk with
  | nil => simp [collectStartPage] at h
  | cons l rest ih =>
    rw [collectStartPage] at h
    by_cases h1 : l.doctop < startY
    · rw [if_pos h1] at h; exact ih h
    · rw [if_neg h1] at h
      by_cases h2 : endY ≤ l.doctop
      · rw [if_pos (show pastEnd (some endY) l.doctop = true by simp [pastEnd, h2])] at h
        simp at h
      · rw [if_neg (show ¬pastEnd (some endY) l.doctop = true by simp [pastEnd, h2])] at h
        by_cases h3 : l.x0 ≤ startBar
        · rw [if_pos h3] at h; exact ih h
        · rw [if_neg h3] at h
          by_cases h4 : shouldDropLineText l.text = true
          · rw [if_pos h4] at h; exact ih h
          · rw [if_neg h4] at h
            by_cases h5 : looksLikeHeading l hmin = true
            · rw [if_pos h5] at h
              by_cases h6 : (!fk && looksSentenceLike l.text) = true
              · rw [if_pos h6] at h
                rcases List.mem_cons.mp h with rfl | hmem
                · exact ⟨lt_of_not_le h3, le_of_not_lt h1, lt_of_not_le h2⟩
                · exact ih hmem
              · rw [if_neg h6] at h; exact ih h
            · rw [if_neg h5] at h
              rcases List.mem_cons.mp h with rfl | hmem
              · exact ⟨lt_of_not_le h3, le_of_not_lt h1, lt_of_not_le h2⟩
              · exact ih hmem

/-- Claim C1: for a rule anchor `A` whose following boundary anchor `B`
lies on the same page, every harvested body line lies strictly right of
`A.x1` plus the body margin and has doctop in `[A.doctop, B.doctop)`. -/
theorem c1_body_boundary (pageLines : List (List Line)) (widths : List ℚ)
    (p : Params) (a b : Anchor) (_hk : a.kind = "rule") (hpage : b.page = a.page) :
    ∀ ln ∈ rawLinesFor pageLines widths p a (some b),
      a.x1 + p.bodyMargin < ln.x0 ∧ a.doctop ≤ ln.doctop ∧ ln.doctop < b.doctop := by
  intro ln h
  rw [rawLinesFor] at h
  simp only [hpage, if_pos rfl, lt_irrefl, if_false, if_neg (lt_irrefl a.page)] at h
  exact mem_collectStartPage h

/-- Witness for C1 at a concrete page. -/
theorem c1_witness :
    anchA.kind = "rule" ∧ anchB.page = anchA.page ∧
    (anchA.x1 + fixParams.bodyMargin <
       (fixLine "the firm must keep adequate records." 20).x0 ∧
     anchA.doctop ≤ (fixLine "the firm must keep adequate records." 20).doctop ∧
     (fixLine "the firm must keep adequate records." 20).doctop < anchB.doctop) :=
  ⟨rfl, rfl,
   c1_body_boundary [[fixLine "the firm must keep adequate records." 20]] [200]
     fixParams anchA anchB rfl rfl _ (by decide)⟩

/-! ### Association-map toolkit -/

theorem findVal_eq_none {k : String × String} {m : EMap} (h : findVal k m = none) :
    ∀ e ∈ m, e.1 ≠ k := by
  induction m with
  | nil => simp
  | cons e rest ih =>
    rw [findVal] at h
    by_cases he : e.1 = k
    · rw [if_pos he] at h; cases h
    · rw [if_neg he] at h
      intro e' he'
      rcases List.mem_cons.mp he' with rfl | hm
      · exact he
      · exact ih h e' hm

theorem findVal_mem {k : String × String} {m : EMap} {v : RecR}
    (h : findVal k m = some v) : (k, v) ∈ m := by
  induction m with
  | nil => simp [findVal] at h
  | cons e rest ih =>
    obtain ⟨k1, v1⟩ := e
    rw [findVal] at h
    by_cases he : (k1, v1).1 = k
    · rw [if_pos he] at h
      simp only at he
      cases h
      exact List.mem_cons.mpr (Or.inl (by rw [he]))
    · rw [if_neg he] at h
      exact List.mem_cons.mpr (Or.inr (ih h))

theorem keys_setVal (m : EMap) (k : String × String) (v : RecR) :
    (setVal m k v).map Prod.fst = m.map Prod.fst := by
  induction m with
  | nil => rfl
  | cons e rest ih =>
    simp only [setVal, List.map_cons] at ih ⊢
    by_cases he : e.1 = k
    · rw [if_pos he, ih]; simp [he]
    · rw [if_neg he, ih]

theorem findVal_setVal_self {k : String × String} {m : EMap} {prev : RecR}
    (h : findVal k m = some prev) (v : RecR) :
    findVal k (setVal m k v) = some v := by
  induction m with
  | nil => simp [findVal] at h
  | cons e rest ih =>
    rw [findVal] at h
    by_cases he : e.1 = k
    · simp [setVal, findVal, he]
    · rw [if_neg he] at h
      simp only [setVal, List.map_cons]
      rw [if_neg he, findVal, if_neg he]
      exact ih h

theorem mem_setVal {e : (String × String) × RecR} {m : EMap}
    {k : String × String} {v : RecR} (h : e ∈ setVal m k v) :
    (e ∈ m ∧ e.1 ≠ k) ∨ e = (k, v) := by
  induction m with
  | nil => simp [setVal] at h
  | cons e' rest ih =>
    simp only [setVal, List.map_cons] at h
    rcases List.mem_cons.mp h with h1 | h2
    · by_cases he : e'.1 = k
      · rw [if_pos he] at h1; exact Or.inr h1
      · rw [if_neg he] at h1
        exact Or.inl ⟨List.mem_cons.mpr (Or.inl h1), h1 ▸ he⟩
    · rcases ih h2 with ⟨hm, hne⟩ | heq
      · exact Or.inl ⟨List.mem_cons.mpr (Or.inr hm), hne⟩
      · exact Or.inr heq

theorem findVal_append_none {k : String × String} {m : EMap}
    (h : findVal k m = none) (l : EMap) : findVal k (m ++ l) = findVal k l := by
  induction m with
  | nil => rfl
  | cons e rest ih =>
    rw [findVal] at h
    by_cases he : e.1 = k
    · rw [if_pos he] at h; cases h
    · rw [if_neg he] at h
      rw [List.cons_append, findVal, if_neg he]
      exact ih h

theorem findVal_insLonger_self (m : EMap) (k : String × String) (v : RecR) :
    findVal k (insLonger m k v) ≠ none := by
  cases hf : findVal k m with
  | none =>
    simp only [insLonger, hf]
    rw [findVal_append_none hf]
    simp [findVal]
  | some prev =>
    simp only [insLonger, hf]
    by_cases hlt : prev.text.length < v.text.length
    · rw [if_pos hlt, findVal_setVal_self hf]; simp
    · rw [if_neg hlt, hf]; simp

theorem findVal_append_some {k : String × String} {m : EMap} {v : RecR}
    (h : findVal k m = some v) (l : EMap) : findVal k (m ++ l) = some v := by
  induction m with
  | nil => cases h
  | cons e rest ih =>
    rw [findVal] at h
    rw [List.cons_append, findVal]
    by_cases he : e.1 = k
    · rw [if_pos he] at h ⊢; exact h
    · rw [if_neg he] at h ⊢; exact ih h

theorem findVal_setVal_other {k' k : String × String} (hkk : k' ≠ k)
    (m : EMap) (v : RecR) : findVal k' (setVal m k v) = findVal k' m := by
  induction m with
  | nil => rfl
  | cons e rest ih =>
    by_cases he : e.1 = k
    · show findVal k' ((if e.1 = k then (k, v) else e) :: setVal rest k v) = _
      rw [if_pos he]
      show (if (k, v).1 = k' then some v else findVal k' (setVal rest k v)) = _
      rw [if_neg (show ¬(k, v).1 = k' from fun hh => hkk hh.symm), ih, findVal,
        if_neg (show ¬e.1 = k' from fun hh => hkk (he ▸ hh).symm)]
    · show findVal k' ((if e.1 = k then (k, v) else e) :: setVal rest k v) = _
      rw [if_neg he]
      show (if e.1 = k' then some e.2 else findVal k' (setVal rest k v)) = _
      rw [findVal, ih]

theorem findVal_insLonger_pres {k' : String × String} {m : EMap}
    (h : findVal k' m ≠ none) (k : String × String) (v : RecR) :
    findVal k' (insLonger m k v) ≠ none := by
  cases hv : findVal k' m with
  | none => exact absurd hv h
  | some w =>
    cases hf : findVal k m with
    | none =>
      simp only [insLonger, hf]
      rw [findVal_append_some hv]; simp
    | some prev =>
      simp only [insLonger, hf]
      by_cases hlt : prev.text.length < v.text.length
      · rw [if_pos hlt]
        by_cases hkk : k' = k
        · subst hkk
          rw [findVal_setVal_self hf]; simp
        · rw [findVal_setVal_other hkk, hv]; simp
      · rw [if_neg hlt, hv]; simp

/-! ### Claim C9: strict replacement, ties keep the earlier record -/

/-- Claim C9: when a later record shares the `(id, type)` key of an
existing entry and its text is not strictly longer (in particular on equal
lengths), the map is left unchanged — at the shared insertion logic, at
the cross-file merge of `main`, and at the harvest step; a later record
replaces the entry exactly when its text is strictly longer. -/
theorem c9_strict_replacement (m : EMap) (k : String × String) (prev v : RecR)
    (h : findVal k m = some prev) (hle : v.text.length ≤ prev.text.length) :
    insLonger m k v = m ∧
    mergeGo m [(k, v)] = m ∧
    (∀ pageLines widths p a next, anchorCandidate pageLines widths p a next = some v →
       recKey v = k → harvestStep pageLines widths p m a next = m) ∧
    (∀ w : RecR, prev.text.length < w.text.length → findVal k (insLonger m k w) = some w) := by
  have hins : insLonger m k v = m := by
    simp only [insLonger, h]
    rw [if_neg (not_lt.mpr hle)]
  refine ⟨hins, ?_, ?_, ?_⟩
  · rw [mergeGo, hins, mergeGo]
  · intro pageLines widths p a next hcand hkey
    simp only [harvestStep, hcand]
    rw [hkey, hins]
  · intro w hgt
    simp only [insLonger, h]
    rw [if_pos hgt]
    exact findVal_setVal_self h w

/-- Witness for C9: two records with equal-length texts on the same key;
the earlier one is kept. -/
theorem c9_witness :
    findVal ("1.2.2", "G") [(("1.2.2", "G"), fixRecA)] = some fixRecA ∧
    fixRecB.text.length ≤ fixRecA.text.length ∧
    fixRecB.text.length = fixRecA.text.length ∧
    insLonger [(("1.2.2", "G"), fixRecA)] ("1.2.2", "G") fixRecB =
      [(("1.2.2", "G"), fixRecA)] :=
  ⟨by decide, by decide, by decide,
   (c9_strict_replacement [(("1.2.2", "G"), fixRecA)] ("1.2.2", "G") fixRecA fixRecB
      (by decide) (by decide)).1⟩

/-! ### Claim C6: minimum body length filter -/

/-- Claim C6: a rule anchor whose reflowed body is shorter than the
configured minimum produces no record (the map is unchanged), while one
meeting the minimum leaves its `(id, type)` key present in the map,
subject to de-duplication; keys already present are never removed. -/
theorem c6_min_body_filter (pageLines : List (List Line)) (widths : List ℚ)
    (p : Params) (m : EMap) (a : Anchor) (next : Option Anchor)
    (hk : a.kind = "rule") :
    ((stripPy (reflowParagraphsFromLines (rawLinesFor pageLines widths p a next))).length
        < p.minBodyLen →
      harvestStep pageLines widths p m a next = m) ∧
    (p.minBodyLen ≤
        (stripPy (reflowParagraphsFromLines (rawLinesFor pageLines widths p a next))).length →
      findVal (a.id, a.type) (harvestStep pageLines widths p m a next) ≠ none) ∧
    (∀ k, findVal k m ≠ none → findVal k (harvestStep pageLines widths p m a next) ≠ none) := by
  refine ⟨?_, ?_, ?_⟩
  · intro hlen
    rw [harvestStep]
    simp only [anchorCandidate, if_pos hk, if_pos hlen]
  · intro hlen
    rw [harvestStep]
    simp only [anchorCandidate, if_pos hk, if_neg (not_lt.mpr hlen)]
    have : recKey (mkRec a
        (stripPy (reflowParagraphsFromLines (rawLinesFor pageLines widths p a next)))) =
        (a.id, a.type) := rfl
    rw [this]
    exact findVal_insLonger_self m (a.id, a.type) _
  · intro k hsome
    rw [harvestStep]
    cases hcand : anchorCandidate pageLines widths p a next with
    | none => exact hsome
    | some r => exact findVal_insLonger_pres hsome (recKey r) r

/-- Witness for C6 at a concrete harvested body of length ≥ 40. -/
theorem c6_witness :
    anchA.kind = "rule" ∧
    fixParams.minBodyLen ≤
      (stripPy (reflowParagraphsFromLines
        (rawLinesFor [[fixLine "the firm must keep adequate records of all client money balances." 20]]
          [200] fixParams anchA none))).length ∧
    findVal (anchA.id, anchA.type)
      (harvestStep [[fixLine "the firm must keep adequate records of all client money balances." 20]]
        [200] fixParams [] anchA none) ≠ none :=
  ⟨rfl, by decide,
   (c6_min_body_filter
      [[fixLine "the firm must keep adequate records of all client money balances." 20]]
      [200] fixParams [] anchA none rfl).2.1 (by decide)⟩

/-! ### Claim C4: de-hyphenation (code bug: the pieces are joined with a
space) -/

/-- Claim C4, evaluated at the failing input: the trailing hyphen after a
letter is removed, but the next line is then joined with a space
separator, so the wrapped word is not reassembled. -/
theorem c4_dehyphen_inserts_space :
    dehyphen "requi-" = "requi" ∧
    reflowParagraphsFromLines [fixLine "requi-" 0, fixLine "rement applies." 12] =
      "requi rement applies." :=
  ⟨by decide, by decide⟩

/-! ### Claim C5: the `N.` list marker never matches -/

/-- Claim C5, evaluated at the failing input: the `\d+\.\s` alternative of
`LIST_START_RE` requires a whitespace character but is matched against a
whitespace-free token, so a line starting `2.` does not start a new
paragraph, while `(1)`, `(a)` and `(iv)` do. -/
theorem c5_numbered_marker_dead :
    (splitWs "2. An item").headD "" = "2." ∧
    listStartMatch "2.".data = false ∧
    reflowParagraphsFromLines [fixLine "Intro text" 0, fixLine "2. An item" 12] =
      "Intro text 2. An item" ∧
    listStartMatch "(1)".data = true ∧
    listStartMatch "(a)".data = true ∧
    listStartMatch "(iv)".data = true ∧
    reflowParagraphsFromLines [fixLine "Intro text" 0, fixLine "(1) An item" 12] =
      "Intro text\n\n(1) An item" := by
  refine ⟨by decide, by decide, by decide, by decide, by decide, by decide, by decide⟩

/-! ### Claim C3: type resolution order -/

/-- Counterexample to claim C3: on a token `1.2.2BG` (glued trail `G`)
with an adjacent standalone `R` token, the code resolves type `R` (the
same-line token wins), while the claim's order (glued trail first) would
resolve `G`. -/
theorem c3_counterexample :
    (detectAnchors [pgGlued] fixParams).map Anchor.type = ["R"] ∧
    matchIdToken "1.2.2BG".data = some ⟨['1'], ['2'], ['2', 'B'], some ['G']⟩ ∧
    claimTypeResolution
      (gluedTrailOf ⟨['1'], ['2'], ['2', 'B'], some ['G']⟩)
      (sameLineTokOf 50 fixParams (fixTok "1.2.2BG" 32 45 0 0) (some (fixTok "R" 46 48 0 0)))
      (nextLineTokOf 50 fixParams (fixTok "1.2.2BG" 32 45 0 0) (some (fixTok "R" 46 48 0 0)))
      = "G" ∧
    ("R" : String) ≠ "G" := by
  refine ⟨by decide, by decide, by decide, by decide⟩

/-- Amended C3: the code's resolution order is same-line standalone token
first, then the glued trail, then the next-line fallback, then the `G`
default; and every non-`R` marker normalizes to `G`. -/
theorem c3_resolution_order (pi : Nat) (ll : ℚ) (p : Params) (t cand : Tok)
    (nxt : Option Tok) (g : IdGroups) :
    (mkAnchorFor pi ll p t cand nxt g).type =
      codeTypeResolution (sameLineTokOf ll p cand nxt) (gluedTrailOf g)
        (nextLineTokOf ll p cand nxt) ∧
    (∀ s : String, upperStr s ≠ "R" → normType (some s) = "G") ∧
    normType none = "G" := by
  refine ⟨?_, fun s hs => by simp [normType, hs], rfl⟩
  cases nxt with
  | none =>
    cases htr : g.trail with
    | none =>
      simp [mkAnchorFor, sameLineTokOf, gluedTrailOf, nextLineTokOf,
        codeTypeResolution, firstSome, htr]
    | some tr =>
      by_cases hm : upperStr (String.mk tr) ∈ typeLetters
      · simp [mkAnchorFor, sameLineTokOf, gluedTrailOf, nextLineTokOf,
          codeTypeResolution, firstSome, htr, hm]
      · simp [mkAnchorFor, sameLineTokOf, gluedTrailOf, nextLineTokOf,
          codeTypeResolution, firstSome, htr, hm]
  | some n =>
    by_cases h1 : sameLineTypeCond ll p cand n
    · simp [mkAnchorFor, sameLineTokOf, gluedTrailOf, nextLineTokOf,
        codeTypeResolution, firstSome, h1]
    · cases htr : g.trail with
      | none =>
        by_cases h3 : nextLineTypeCond ll p cand n
        · simp [mkAnchorFor, sameLineTokOf, gluedTrailOf, nextLineTokOf,
            codeTypeResolution, firstSome, htr, h1, h3]
        · simp [mkAnchorFor, sameLineTokOf, gluedTrailOf, nextLineTokOf,
            codeTypeResolution, firstSome, htr, h1, h3]
      | some tr =>
        by_cases hm : upperStr (String.mk tr) ∈ typeLetters
        · simp [mkAnchorFor, sameLineTokOf, gluedTrailOf, nextLineTokOf,
            codeTypeResolution, firstSome, htr, h1, hm]
        · by_cases h3 : nextLineTypeCond ll p cand n
          · simp [mkAnchorFor, sameLineTokOf, gluedTrailOf, nextLineTokOf,
              codeTypeResolution, firstSome, htr, h1, hm, h3]
          · simp [mkAnchorFor, sameLineTokOf, gluedTrailOf, nextLineTokOf,
              codeTypeResolution, firstSome, htr, h1, hm, h3]

/-- Witness for the amended C3 at the concrete glued-plus-adjacent page,
where the same-line `R` beats the glued `G` trail. -/
theorem c3_witness :
    upperStr "BG" ≠ "R" ∧ normType (some "BG") = "G" ∧
    (mkAnchorFor 0 50 fixParams (fixTok "CASS" 10 30 0 0) (fixTok "1.2.2BG" 32 45 0 0)
        (some (fixTok "R" 46 48 0 0)) ⟨['1'], ['2'], ['2', 'B'], some ['G']⟩).type =
      codeTypeResolution
        (sameLineTokOf 50 fixParams (fixTok "1.2.2BG" 32 45 0 0) (some (fixTok "R" 46 48 0 0)))
        (gluedTrailOf ⟨['1'], ['2'], ['2', 'B'], some ['G']⟩)
        (nextLineTokOf 50 fixParams (fixTok "1.2.2BG" 32 45 0 0) (some (fixTok "R" 46 48 0 0))) :=
  ⟨by decide,
   (c3_resolution_order 0 50 fixParams (fixTok "CASS" 10 30 0 0) (fixTok "1.2.2BG" 32 45 0 0)
      (some (fixTok "R" 46 48 0 0)) ⟨['1'], ['2'], ['2', 'B'], some ['G']⟩).2.1 "BG" (by decide),
   (c3_resolution_order 0 50 fixParams (fixTok "CASS" 10 30 0 0) (fixTok "1.2.2BG" 32 45 0 0)
      (some (fixTok "R" 46 48 0 0)) ⟨['1'], ['2'], ['2', 'B'], some ['G']⟩).1⟩

/-! ### Claim C7: zero records is not fatal -/

theorem processFiles_split (p : Params) (files : List FileInput) :
    ∀ m w, (processFiles p files (m, w)).1 = (processFiles p files (m, [])).1 ∧
      (processFiles p files (m, w)).2 = w ++ (processFiles p files (m, [])).2 := by
  induction files with
  | nil => intro m w; exact ⟨rfl, by simp [processFiles]⟩
  | cons f rest ih =>
    intro m w
    cases f with
    | missing =>
      simp only [processFiles, processFile, List.nil_append]
      refine ⟨?_, ?_⟩
      · rw [(ih m (w ++ ["missing input"])).1, (ih m ["missing input"]).1]
      · rw [(ih m (w ++ ["missing input"])).2, (ih m ["missing input"]).2,
          List.append_assoc]
    | present pages =>
      simp only [processFiles, processFile, List.nil_append]
      by_cases ha : (detectAnchors pages p).isEmpty
      · rw [if_pos ha, if_pos ha]
        refine ⟨?_, ?_⟩
        · rw [(ih _ (w ++ ["no anchors found"])).1, (ih _ ["no anchors found"]).1]
        · rw [(ih _ (w ++ ["no anchors found"])).2, (ih _ ["no anchors found"]).2,
            List.append_assoc]
      · rw [if_neg ha, if_neg ha]
        exact ⟨(ih _ w).1, by rw [(ih _ w).2]⟩

/-- Counterexample to claim C7: a run producing zero records still
"writes" the (empty) output and reports success — the source has no
empty-result check. -/
theorem c7_counterexample :
    (mainRun fixParams [FileInput.missing]).items = [] ∧
    (mainRun fixParams [FileInput.missing]).wrote = true ∧
    (mainRun fixParams [FileInput.missing]).success = true ∧
    (mainRun fixParams [FileInput.missing]).warnings = ["missing input"] := by
  refine ⟨by decide, rfl, rfl, by decide⟩

/-- Amended C7: missing inputs and anchor-free documents are warned about
and processing continues, and a run with zero records still writes its
(empty) output and reports success. -/
theorem c7_warn_and_continue (p : Params) (files : List FileInput) :
    (mainRun p files).wrote = true ∧
    (mainRun p files).success = true ∧
    (mainRun p (FileInput.missing :: files)).items = (mainRun p files).items ∧
    (mainRun p (FileInput.missing :: files)).warnings =
      "missing input" :: (mainRun p files).warnings ∧
    (∀ pages, detectAnchors pages p = [] →
       (mainRun p (FileInput.present pages :: files)).items = (mainRun p files).items ∧
       (mainRun p (FileInput.present pages :: files)).warnings =
         "no anchors found" :: (mainRun p files).warnings) := by
  refine ⟨rfl, rfl, ?_, ?_, ?_⟩
  · simp only [mainRun, processFiles, processFile, List.nil_append]
    rw [(processFiles_split p files [] ["missing input"]).1]
  · simp only [mainRun, processFiles, processFile, List.nil_append]
    rw [(processFiles_split p files [] ["missing input"]).2]
    rfl
  · intro pages hpg
    have hbodies : harvestBodies pages [] p = [] := rfl
    refine ⟨?_, ?_⟩
    · simp only [mainRun, processFiles, processFile, hpg, hbodies, mergeGo,
        List.isEmpty_nil, if_true, List.nil_append]
      rw [(processFiles_split p files [] ["no anchors found"]).1]
    · simp only [mainRun, processFiles, processFile, hpg, hbodies, mergeGo,
        List.isEmpty_nil, if_true, List.nil_append]
      rw [(processFiles_split p files [] ["no anchors found"]).2]
      rfl

/-- Witness for the amended C7 at a concrete anchor-free input. -/
theorem c7_witness :
    detectAnchors [] fixParams = [] ∧
    (mainRun fixParams [FileInput.present []]).items = (mainRun fixParams []).items ∧
    (mainRun fixParams [FileInput.present []]).warnings =
      "no anchors found" :: (mainRun fixParams []).warnings :=
  ⟨rfl, (c7_warn_and_continue fixParams []).2.2.2.2 [] rfl⟩

/-! ### Claim C8: the identifier is only sought in the CASS token's band -/

/-- Counterexample to claim C8: `CASS` on one line and the identifier on
its own following line (outside the y-tolerance band) yields no anchor at
all. -/
theorem c8_counterexample :
    detectAnchors [pgOwnLine] fixParams = [] ∧
    pgOwnLine.words = [fixTok "CASS" 10 30 0 0, fixTok "1.2.2" 10 25 12 12] ∧
    matchIdToken "1.2.2".data = some ⟨['1'], ['2'], ['2'], none⟩ := by
  refine ⟨by decide, rfl, by decide⟩

/-- Amended C8: a clause identifier is anchored when it lies in the left
gutter within the y-tolerance band of a literal `CASS` token (in
particular on the same visual line); the anchor is a rule anchor carrying
the identifier. -/
theorem c8_same_band (pi : Nat) (ll : ℚ) (p : Params) (t c : Tok) (g : IdGroups)
    (hcass : cassMatch t.text = true) (htx : t.x0 < ll) (hcx : c.x0 < ll)
    (hband : qabs (c.doctop - t.doctop) ≤ p.yTol)
    (hid : matchIdToken c.text.data = some g)
    (hnc : cassMatch c.text = false) (hns : sectionMatch c.text = false) :
    scanToks pi ll p [t, c] = [mkAnchorFor pi ll p t c none g] ∧
    (mkAnchorFor pi ll p t c none g).id = mkId g ∧
    (mkAnchorFor pi ll p t c none g).kind = "rule" := by
  refine ⟨?_, rfl, rfl⟩
  rw [scanToks, if_neg (not_le.mpr htx), if_pos hcass]
  have hseek : seekId pi ll p t [c] = some (mkAnchorFor pi ll p t c none g) := by
    rw [seekId, if_pos hband, if_neg (not_le.mpr hcx)]
    simp only [hid, List.head?]
  rw [hseek]
  rw [scanToks, if_neg (not_le.mpr hcx)]
  rw [if_neg (show ¬cassMatch c.text = true by simp [hnc])]
  rw [if_neg (show ¬(sectionMatch c.text && decide (c.x0 < ll)) = true by simp [hns])]
  rfl

/-- Witness for the amended C8 at the same-line fixture page. -/
theorem c8_witness :
    qabs ((fixTok "1.2.2" 32 45 0 0).doctop - (fixTok "CASS" 10 30 0 0).doctop) ≤
      fixParams.yTol ∧
    scanToks 0 50 fixParams [fixTok "CASS" 10 30 0 0, fixTok "1.2.2" 32 45 0 0] =
      [mkAnchorFor 0 50 fixParams (fixTok "CASS" 10 30 0 0) (fixTok "1.2.2" 32 45 0 0)
        none ⟨['1'], ['2'], ['2'], none⟩] :=
  ⟨by decide,
   (c8_same_band 0 50 fixParams (fixTok "CASS" 10 30 0 0) (fixTok "1.2.2" 32 45 0 0)
      ⟨['1'], ['2'], ['2'], none⟩ (by decide) (by decide) (by decide) (by decide)
      (by decide) (by decide) (by decide)).1⟩

/-! ### De-duplication invariant (claims C2 and C10) -/

theorem findVal_unique {m : EMap} {e : (String × String) × RecR}
    (hnd : (m.map Prod.fst).Nodup) (hm : e ∈ m) {k : String × String}
    (hk : e.1 = k) : findVal k m = some e.2 := by
  induction m with
  | nil => cases hm
  | cons e' rest ih =>
    rw [List.map_cons, List.nodup_cons] at hnd
    rcases List.mem_cons.mp hm with rfl | hmem
    · rw [findVal, if_pos hk]
    · rw [findVal]
      by_cases he : e'.1 = k
      · exfalso
        exact hnd.1 (by rw [he, ← hk]; exact List.mem_map.mpr ⟨e, hmem, rfl⟩)
      · rw [if_neg he]
        exact ih hnd.2 hmem

theorem goodMap_congr {m : EMap} {rs rs' : List RecR} (h : GoodMap m rs)
    (hmem : ∀ r, r ∈ rs ↔ r ∈ rs') : GoodMap m rs' := by
  obtain ⟨h1, h2, h3, h4⟩ := h
  refine ⟨h1, h2, ?_, ?_⟩
  · intro e he
    obtain ⟨hm, hd⟩ := h3 e he
    exact ⟨(hmem e.2).mp hm, fun r hr => hd r ((hmem r).mpr hr)⟩
  · intro r hr
    exact h4 r ((hmem r).mpr hr)

theorem good_ins {m : EMap} {rs : List RecR} (hG : GoodMap m rs)
    {k : String × String} {v : RecR} (hk : k = recKey v)
    {S : List RecR} (hvS : v ∈ S) (hSk : ∀ r ∈ S, recKey r = k)
    (hdom : DomRec v k S) : GoodMap (insLonger m k v) (rs ++ S) := by
  obtain ⟨hnd, hke, hmd, hcov⟩ := hG
  cases hf : findVal k m with
  | none =>
    have hknotin : ∀ e ∈ m, e.1 ≠ k := findVal_eq_none hf
    have hknotkeys : k ∉ m.map Prod.fst := by
      intro hin
      obtain ⟨e, he, heq⟩ := List.mem_map.mp hin
      exact hknotin e he heq
    have hnors : ∀ r ∈ rs, recKey r ≠ k := by
      intro r hr hrk
      obtain ⟨e, he, heq⟩ := hcov r hr
      exact hknotin e he (heq.trans hrk)
    simp only [insLonger, hf]
    refine ⟨?_, ?_, ?_, ?_⟩
    · rw [List.map_append]
      simp only [List.map_cons, List.map_nil]
      rw [List.nodup_append]
      exact ⟨hnd, List.nodup_singleton k, by
        intro a ha hb
        simp only [List.mem_singleton] at hb
        exact hknotkeys (hb ▸ ha)⟩
    · intro e he
      rcases List.mem_append.mp he with hm | hs
      · exact hke e hm
      · simp only [List.mem_singleton] at hs
        rw [hs]; exact hk
    · intro e he
      rcases List.mem_append.mp he with hm | hs
      · obtain ⟨hmem, hd⟩ := hmd e hm
        refine ⟨List.mem_append.mpr (Or.inl hmem), ?_⟩
        intro r hr hrk
        rcases List.mem_append.mp hr with h1 | h2
        · exact hd r h1 hrk
        · exact absurd (((hSk r h2).symm.trans hrk).symm) (hknotin e hm)
      · simp only [List.mem_singleton] at hs
        subst hs
        refine ⟨List.mem_append.mpr (Or.inr hvS), ?_⟩
        intro r hr hrk
        rcases List.mem_append.mp hr with h1 | h2
        · exact absurd hrk (hnors r h1)
        · exact hdom r h2 (hSk r h2)
    · intro r hr
      rcases List.mem_append.mp hr with h1 | h2
      · obtain ⟨e, he, heq⟩ := hcov r h1
        exact ⟨e, List.mem_append.mpr (Or.inl he), heq⟩
      · exact ⟨(k, v), List.mem_append.mpr (Or.inr (List.mem_singleton.mpr rfl)),
          (hSk r h2).symm⟩
  | some prev =>
    have hprevmem : (k, prev) ∈ m := findVal_mem hf
    have hprevdom : DomRec prev k rs := (hmd (k, prev) hprevmem).2
    have hkin : k ∈ m.map Prod.fst := List.mem_map.mpr ⟨(k, prev), hprevmem, rfl⟩
    by_cases hlt : prev.text.length < v.text.length
    · simp only [insLonger, hf, if_pos hlt]
      refine ⟨?_, ?_, ?_, ?_⟩
      · rw [keys_setVal]; exact hnd
      · intro e he
        rcases mem_setVal he with ⟨hm, _⟩ | heq
        · exact hke e hm
        · rw [heq]; exact hk
      · intro e he
        rcases mem_setVal he with ⟨hm, hne⟩ | heq
        · obtain ⟨hmem, hd⟩ := hmd e hm
          refine ⟨List.mem_append.mpr (Or.inl hmem), ?_⟩
          intro r hr hrk
          rcases List.mem_append.mp hr with h1 | h2
          · exact hd r h1 hrk
          · exact absurd (((hSk r h2).symm.trans hrk).symm) hne
        · subst heq
          refine ⟨List.mem_append.mpr (Or.inr hvS), ?_⟩
          intro r hr hrk
          rcases List.mem_append.mp hr with h1 | h2
          · exact le_of_lt (lt_of_le_of_lt (hprevdom r h1 hrk) hlt)
          · exact hdom r h2 (hSk r h2)
      · intro r hr
        have hkeys : ∃ e ∈ setVal m k v, e.1 = recKey r := by
          rcases List.mem_append.mp hr with h1 | h2
          · obtain ⟨e, he, heq⟩ := hcov r h1
            have : recKey r ∈ (setVal m k v).map Prod.fst := by
              rw [keys_setVal]
              exact List.mem_map.mpr ⟨e, he, heq⟩
            obtain ⟨e', he', heq'⟩ := List.mem_map.mp this
            exact ⟨e', he', heq'⟩
          · have : recKey r ∈ (setVal m k v).map Prod.fst := by
              rw [keys_setVal, hSk r h2]
              exact hkin
            obtain ⟨e', he', heq'⟩ := List.mem_map.mp this
            exact ⟨e', he', heq'⟩
        exact hkeys
    · simp only [insLonger, hf, if_neg hlt]
      refine ⟨hnd, hke, ?_, ?_⟩
      · intro e he
        obtain ⟨hmem, hd⟩ := hmd e he
        refine ⟨List.mem_append.mpr (Or.inl hmem), ?_⟩
        intro r hr hrk
        rcases List.mem_append.mp hr with h1 | h2
        · exact hd r h1 hrk
        · by_cases hek : e.1 = k
          · have : findVal k m = some e.2 := findVal_unique hnd he hek
            rw [hf] at this
            cases this
            exact le_trans (hdom r h2 (hSk r h2)) (not_lt.mp hlt)
          · exact absurd (((hSk r h2).symm.trans hrk).symm) hek
      · intro r hr
        rcases List.mem_append.mp hr with h1 | h2
        · exact hcov r h1
        · exact ⟨(k, prev), hprevmem, (hSk r h2).symm⟩

theorem good_nil : GoodMap [] [] :=
  ⟨List.nodup_nil, by simp, by simp, by simp⟩

theorem good_fold_stream (vs : List RecR) :
    ∀ m rs, GoodMap m rs → GoodMap (vs.foldl insRec m) (rs ++ vs) := by
  induction vs with
  | nil => intro m rs h; simpa using h
  | cons v rest ih =>
    intro m rs h
    have h1 : GoodMap (insRec m v) (rs ++ [v]) :=
      good_ins h rfl (List.mem_singleton.mpr rfl)
        (fun r hr => by rw [List.mem_singleton.mp hr])
        (fun r hr _ => by rw [List.mem_singleton.mp hr])
    have h2 := ih (insRec m v) (rs ++ [v]) h1
    rw [List.foldl_cons]
    refine goodMap_congr h2 ?_
    intro r
    simp only [List.mem_append, List.mem_singleton, List.mem_cons]
    tauto

theorem harvestGo_eq (pageLines : List (List Line)) (widths : List ℚ) (p : Params) :
    ∀ as m, harvestGo pageLines widths p as m =
      (harvestRecsGo pageLines widths p as).foldl insRec m := by
  intro as
  induction as with
  | nil => intro m; rfl
  | cons a rest ih =>
    intro m
    rw [harvestGo, harvestRecsGo]
    cases hc : anchorCandidate pageLines widths p a rest.head? with
    | none =>
      rw [harvestStep, hc, List.nil_append, ih]
    | some r =>
      rw [harvestStep, hc, ih]
      rfl

theorem good_harvest (pages : List Page) (anchors : List Anchor) (p : Params) :
    GoodMap (harvestBodies pages anchors p) (harvestRecs pages anchors p) := by
  rw [harvestBodies, harvestGo_eq, harvestRecs]
  simpa using good_fold_stream _ [] [] good_nil

theorem good_merge_fold (ents : List ((String × String) × RecR)) :
    ∀ m rs F, GoodMap m rs →
      (ents.map Prod.fst).Nodup →
      (∀ e ∈ ents, e.1 = recKey e.2 ∧ e.2 ∈ F ∧ DomRec e.2 e.1 F) →
      (∀ r ∈ F, ∃ e ∈ ents, e.1 = recKey r) →
      GoodMap (mergeGo m ents) (rs ++ F) := by
  induction ents with
  | nil =>
    intro m rs F h _ _ hcov
    refine goodMap_congr h ?_
    intro r
    simp only [List.mem_append]
    constructor
    · exact Or.inl
    · rintro (h1 | h2)
      · exact h1
      · obtain ⟨e, he, _⟩ := hcov r h2
        cases he

  | cons e rest ih =>
    intro m rs F h hnd hent hcov
    rw [List.map_cons, List.nodup_cons] at hnd
    obtain ⟨hke, heF, hedom⟩ := hent e (List.mem_cons.mpr (Or.inl rfl))
    have hS : ∀ r ∈ F.filter (fun r => recKey r = e.1), recKey r = e.1 := by
      intro r hr
      exact of_decide_eq_true (List.mem_filter.mp hr).2
    have hvS : e.2 ∈ F.filter (fun r => recKey r = e.1) :=
      List.mem_filter.mpr ⟨heF, decide_eq_true hke.symm⟩
    have h1 : GoodMap (insLonger m e.1 e.2)
        (rs ++ F.filter (fun r => recKey r = e.1)) :=
      good_ins h hke hvS hS
        (fun r hr hrk => hedom r (List.mem_filter.mp hr).1 hrk)
    have h2 := ih (insLonger m e.1 e.2) (rs ++ F.filter (fun r => recKey r = e.1))
      (F.filter (fun r => ¬recKey r = e.1)) h1 hnd.2 ?_ ?_
    · rw [mergeGo]
      refine goodMap_congr h2 ?_
      intro r
      simp only [List.mem_append, List.mem_filter, decide_eq_true_eq, decide_not,
        Bool.not_eq_eq_eq_not, Bool.not_true, decide_eq_false_iff_not]
      by_cases hr : recKey r = e.1 <;> tauto
    · intro e' he'
      obtain ⟨hke', heF', hedom'⟩ := hent e' (List.mem_cons.mpr (Or.inr he'))
      have hne : e'.1 ≠ e.1 := by
        intro hcon
        exact hnd.1 (hcon ▸ List.mem_map.mpr ⟨e', he', rfl⟩)
      refine ⟨hke', List.mem_filter.mpr ⟨heF', ?_⟩, ?_⟩
      · simp only [decide_eq_true_eq, decide_not, Bool.not_eq_eq_eq_not, Bool.not_true,
          decide_eq_false_iff_not]
        rw [← hke']
        exact hne
      · intro r hr hrk
        exact hedom' r (List.mem_filter.mp hr).1 hrk
    · intro r hr
      obtain ⟨hrF, hrne⟩ := List.mem_filter.mp hr
      have hrne' : ¬recKey r = e.1 := by
        simpa using hrne
      obtain ⟨e', he', heq'⟩ := hcov r hrF
      rcases List.mem_cons.mp he' with rfl | hmem
      · exact absurd heq'.symm hrne'
      · exact ⟨e', hmem, heq'⟩

theorem good_processFiles (p : Params) (files : List FileInput) :
    ∀ m w rs, GoodMap m rs →
      GoodMap ((processFiles p files (m, w)).1) (rs ++ allStream p files) := by
  induction files with
  | nil =>
    intro m w rs h
    refine goodMap_congr h ?_
    intro r
    simp [allStream]
  | cons f rest ih =>
    intro m w rs h
    cases f with
    | missing =>
      simp only [processFiles, processFile]
      have := ih m (w ++ ["missing input"]) rs h
      refine goodMap_congr this ?_
      intro r
      simp [allStream, fileStream]
    | present pages =>
      simp only [processFiles, processFile]
      have hbody := good_harvest pages (detectAnchors pages p) p
      have hmerged : GoodMap (mergeGo m (harvestBodies pages (detectAnchors pages p) p))
          (rs ++ harvestRecs pages (detectAnchors pages p) p) :=
        good_merge_fold _ m rs _ h hbody.1
          (fun e he => ⟨hbody.2.1 e he, (hbody.2.2.1 e he).1, (hbody.2.2.1 e he).2⟩)
          hbody.2.2.2
      have := ih (mergeGo m (harvestBodies pages (detectAnchors pages p) p))
        (if (detectAnchors pages p).isEmpty = true then w ++ ["no anchors found"] else w)
        _ hmerged
      refine goodMap_congr this ?_
      intro r
      simp only [allStream, fileStream, List.map_cons, List.flatten_cons, List.mem_append,
        List.mem_flatten]
      constructor
      · rintro ((h1 | h2) | h3)
        · exact Or.inl h1
        · exact Or.inr (Or.inl h2)
        · exact Or.inr (Or.inr h3)
      · rintro (h1 | (h2 | h3))
        · exact Or.inl (Or.inl h1)
        · exact Or.inl (Or.inr h2)
        · exact Or.inr h3

/-! ### Stability of the model sort -/

theorem insSorted_perm (lt : α → α → Bool) (x : α) (l : List α) :
    List.Perm (insSorted lt x l) (x :: l) := by
  induction l with
  | nil => exact List.Perm.refl _
  | cons y ys ih =>
    rw [insSorted]
    by_cases h : lt y x
    · rw [if_pos h]
      exact ((ih.cons y).trans (List.Perm.swap x y ys))
    · rw [if_neg h]

theorem sortStable_perm (lt : α → α → Bool) (l : List α) :
    List.Perm (sortStable lt l) l := by
  induction l with
  | nil => exact List.Perm.refl _
  | cons x xs ih =>
    rw [sortStable]
    exact (insSorted_perm lt x (sortStable lt xs)).trans (ih.cons x)

theorem mem_sortStable {lt : α → α → Bool} {l : List α} {a : α} :
    a ∈ sortStable lt l ↔ a ∈ l :=
  (sortStable_perm lt l).mem_iff

/-! ### Claim C2 -/

/-- Claim C2: in the final output sequence every `(id, type)` key appears
exactly once; every output record is one of the harvested records, its
text is at least as long as that of every harvested record (from any
input file) sharing its key, and every harvested key is represented. -/
theorem c2_dedup_longest (p : Params) (files : List FileInput) :
    (((mainRun p files).items.map recKey).Nodup) ∧
    (∀ r ∈ (mainRun p files).items,
       r ∈ allStream p files ∧
       ∀ c ∈ allStream p files, recKey c = recKey r →
         c.text.length ≤ r.text.length) ∧
    (∀ c ∈ allStream p files, ∃ r ∈ (mainRun p files).items, recKey r = recKey c) := by
  have hgood : GoodMap ((processFiles p files ([], [])).1) (allStream p files) := by
    have := good_processFiles p files [] [] [] good_nil
    simpa using this
  obtain ⟨hnd, hke, hmd, hcov⟩ := hgood
  have hitems : (mainRun p files).items =
      sortStable recLt (((processFiles p files ([], [])).1).map Prod.snd) := rfl
  refine ⟨?_, ?_, ?_⟩
  · have hmapeq : (((processFiles p files ([], [])).1).map Prod.snd).map recKey =
        ((processFiles p files ([], [])).1).map Prod.fst := by
      rw [List.map_map]
      exact List.map_congr_left (fun e he => (hke e he).symm)
    have hperm : List.Perm ((mainRun p files).items.map recKey)
        ((((processFiles p files ([], [])).1).map Prod.snd).map recKey) := by
      rw [hitems]
      exact (sortStable_perm recLt _).map recKey
    rw [hperm.nodup_iff, hmapeq]
    exact hnd
  · intro r hr
    rw [hitems] at hr
    obtain ⟨e, he, heq⟩ := List.mem_map.mp (mem_sortStable.mp hr)
    obtain ⟨hmem, hdom⟩ := hmd e he
    subst heq
    exact ⟨hmem, fun c hc hck => hdom c hc (hck.trans (hke e he).symm)⟩
  · intro c hc
    obtain ⟨e, he, heq⟩ := hcov c hc
    refine ⟨e.2, ?_, ?_⟩
    · rw [hitems]
      exact mem_sortStable.mpr (List.mem_map.mpr ⟨e, he, rfl⟩)
    · rw [← hke e he]
      exact heq

/-- Witness for C2 at a concrete single-file run. -/
theorem c2_witness :
    ((mainRun fixParams [FileInput.present [pgMain]]).items.map recKey).Nodup ∧
    recMain ∈ (mainRun fixParams [FileInput.present [pgMain]]).items ∧
    (recMain ∈ allStream fixParams [FileInput.present [pgMain]] ∧
     ∀ c ∈ allStream fixParams [FileInput.present [pgMain]],
       recKey c = recKey recMain → c.text.length ≤ recMain.text.length) :=
  ⟨(c2_dedup_longest fixParams [FileInput.present [pgMain]]).1,
   by decide,
   (c2_dedup_longest fixParams [FileInput.present [pgMain]]).2.1 recMain (by decide)⟩

/-! ### Identifier grammar lemmas (claim C10) -/

theorem digit_ne_dot {c : Char} (h : c.isDigit = true) : c ≠ '.' := by
  intro hc
  rw [hc] at h
  cases h

theorem upperAZ_ne_dot {c : Char} (h : isUpperAZ c = true) : c ≠ '.' := by
  intro hc
  rw [hc] at h
  cases h

theorem upperAZ_not_digit {c : Char} (h : isUpperAZ c = true) : c.isDigit = false := by
  simp only [isUpperAZ, decide_eq_true_eq] at h
  by_cases hd : c.isDigit = true
  · exfalso
    simp only [Char.isDigit, Bool.and_eq_true, decide_eq_true_eq] at hd
    have h9 : c ≤ '9' := Char.le_def.mpr hd.2
    exact absurd (le_trans h.1 h9) (by decide)
  · simpa using hd

theorem takeWhile_digits_append {d r : List Char}
    (hd : ∀ c ∈ d, c.isDigit = true)
    (hr : ∀ c cs, r = c :: cs → c.isDigit = false) :
    (d ++ r).takeWhile Char.isDigit = d ∧ (d ++ r).dropWhile Char.isDigit = r := by
  induction d with
  | nil =>
    simp only [List.nil_append]
    cases r with
    | nil => simp [List.takeWhile, List.dropWhile]
    | cons c cs =>
      rw [List.takeWhile_cons, List.dropWhile_cons, hr c cs rfl]
      simp
  | cons c d' ih =>
    have hc : c.isDigit = true := hd c (List.mem_cons.mpr (Or.inl rfl))
    have ih' := ih (fun x hx => hd x (List.mem_cons.mpr (Or.inr hx)))
    rw [List.cons_append, List.takeWhile_cons, List.dropWhile_cons, hc]
    simp only [if_true]
    exact ⟨by rw [ih'.1], by rw [ih'.2]⟩

theorem span_digits_append {d r : List Char}
    (hd : ∀ c ∈ d, c.isDigit = true)
    (hr : ∀ c cs, r = c :: cs → c.isDigit = false) :
    (d ++ r).span Char.isDigit = (d, r) := by
  rw [List.span_eq_take_drop, (takeWhile_digits_append hd hr).1,
    (takeWhile_digits_append hd hr).2]

theorem chapterOKb_of {d ex : List Char} (hd : ∀ c ∈ d, c.isDigit = true)
    (hne : d ≠ []) (hex : ex = [] ∨ ∃ c, ex = [c] ∧ isUpperAZ c = true) :
    chapterOKb (d ++ ex) = true := by
  have hr : ∀ c cs, ex = c :: cs → c.isDigit = false := by
    intro c cs hc
    rcases hex with rfl | ⟨c', hc', hu⟩
    · cases hc
    · rw [hc'] at hc
      cases hc
      exact upperAZ_not_digit hu
  simp only [chapterOKb, span_digits_append hd hr]
  rcases hex with rfl | ⟨c', rfl, hu⟩
  · simp [hne]
  · simp [hne, hu]

theorem sectionOKb_of {d : List Char} (hd : ∀ c ∈ d, c.isDigit = true)
    (hne : d ≠ []) : sectionOKb d = true := by
  cases d with
  | nil => exact absurd rfl hne
  | cons c cs =>
    simp only [sectionOKb, List.isEmpty_cons, Bool.not_false, Bool.true_and,
      List.all_eq_true]
    exact fun x hx => hd x hx

theorem ruleOKb_of {d ex : List Char} (hd : ∀ c ∈ d, c.isDigit = true)
    (hne : d ≠ [])
    (hex : ex = [] ∨ (∃ c, ex = [c] ∧ isUpperAZ c = true) ∨
      (∃ c, ex = ['-', c] ∧ isUpperAZ c = true)) :
    ruleOKb (d ++ ex) = true := by
  have hr : ∀ c cs, ex = c :: cs → c.isDigit = false := by
    intro c cs hc
    rcases hex with rfl | ⟨c', hc', hu⟩ | ⟨c', hc', _⟩
    · cases hc
    · rw [hc'] at hc
      cases hc
      exact upperAZ_not_digit hu
    · rw [hc'] at hc
      cases hc
      decide
  simp only [ruleOKb, span_digits_append hd hr]
  rcases hex with rfl | ⟨c', rfl, hu⟩ | ⟨c', rfl, hu⟩
  · simp [hne]
  · simp [hne, hu]
  · simp [hne, hu]

theorem chapterDot_ex {r1 ex r2 : List Char} (h : chapterDot r1 = some (ex, r2)) :
    ex = [] ∨ ∃ c, ex = [c] ∧ isUpperAZ c = true := by
  cases r1 with
  | nil => cases h
  | cons c rest =>
    simp only [chapterDot] at h
    by_cases hc : c = '.'
    · rw [if_pos hc] at h
      injection h with h1
      injection h1 with h2 _
      exact Or.inl h2.symm
    · rw [if_neg hc] at h
      cases rest with
      | nil => cases h
      | cons c2 rest2 =>
        dsimp only at h
        by_cases hg : (c2 = '.' && isUpperAZ c) = true
        · rw [if_pos hg] at h
          injection h with h1
          injection h1 with h2 _
          exact Or.inr ⟨c, h2.symm, (Bool.and_eq_true _ _ ▸ hg).2⟩
        · rw [if_neg hg] at h
          cases h

theorem ruleSuffix_ex {r5 ex : List Char} {tr : Option (List Char)}
    (h : ruleSuffix r5 = some (ex, tr)) :
    ex = [] ∨ (∃ c, ex = [c] ∧ isUpperAZ c = true) ∨
      (∃ c, ex = ['-', c] ∧ isUpperAZ c = true) := by
  cases r5 with
  | nil =>
    rw [ruleSuffix] at h
    injection h with h1
    injection h1 with h2 _
    exact Or.inl h2.symm
  | cons c r =>
    simp only [ruleSuffix] at h
    by_cases hc : c = '-'
    · rw [if_pos hc] at h
      cases r with
      | nil => cases h
      | cons c2 r2 =>
        dsimp only at h
        by_cases hu : isUpperAZ c2 = true
        · rw [if_pos hu] at h
          cases htr : trailPart r2 with
          | none => rw [htr] at h; cases h
          | some tr2 =>
            rw [htr] at h
            simp only [Option.map] at h
            injection h with h1
            injection h1 with h2 _
            exact Or.inr (Or.inr ⟨c2, hc ▸ h2.symm, hu⟩)
        · rw [if_neg hu] at h
          cases h
    · rw [if_neg hc] at h
      by_cases hu : isUpperAZ c = true
      · rw [if_pos hu] at h
        cases htr : trailPart r with
        | none => rw [htr] at h; cases h
        | some tr2 =>
          rw [htr] at h
          simp only [Option.map] at h
          injection h with h1
          injection h1 with h2 _
          exact Or.inr (Or.inl ⟨c, h2.symm, hu⟩)
      · rw [if_neg hu] at h
        cases h

theorem matchIdToken_groups {l : List Char} {g : IdGroups}
    (h : matchIdToken l = some g) :
    chapterOKb g.chapter = true ∧ sectionOKb g.sec = true ∧ ruleOKb g.rule = true := by
  rw [matchIdToken] at h
  rcases hsp : l.span Char.isDigit with ⟨d1, r1⟩
  rw [hsp] at h
  dsimp only at h
  by_cases hd1 : d1 = []
  · rw [if_pos hd1] at h; cases h
  · rw [if_neg hd1] at h
    cases hcd : chapterDot r1 with
    | none => rw [hcd] at h; cases h
    | some pair1 =>
      obtain ⟨ex1, r2⟩ := pair1
      rw [hcd] at h
      dsimp only at h
      rcases hsp2 : r2.span Char.isDigit with ⟨d2, r3⟩
      rw [hsp2] at h
      dsimp only at h
      by_cases hd2 : d2 = []
      · rw [if_pos hd2] at h; cases h
      · rw [if_neg hd2] at h
        cases r3 with
        | nil => cases h
        | cons c3 r4 =>
          dsimp only at h
          by_cases hc3 : c3 = '.'
          · rw [if_pos hc3] at h
            rcases hsp3 : r4.span Char.isDigit with ⟨d3, r5⟩
            rw [hsp3] at h
            dsimp only at h
            by_cases hd3 : d3 = []
            · rw [if_pos hd3] at h; cases h
            · rw [if_neg hd3] at h
              cases hrs : ruleSuffix r5 with
              | none => rw [hrs] at h; cases h
              | some pair3 =>
                obtain ⟨ex3, tr⟩ := pair3
                rw [hrs] at h
                dsimp only at h
                injection h with h1
                subst h1
                have hda : ∀ {d r : List Char} {rest : List Char},
                    rest.span Char.isDigit = (d, r) → ∀ c ∈ d, c.isDigit = true := by
                  intro d r rest hspan c hc
                  rw [List.span_eq_take_drop] at hspan
                  injection hspan with ht _
                  exact List.mem_takeWhile_imp (ht ▸ hc)
                refine ⟨?_, ?_, ?_⟩
                · exact chapterOKb_of (hda hsp) hd1 (chapterDot_ex hcd)
                · exact sectionOKb_of (hda hsp2) hd2
                · exact ruleOKb_of (hda hsp3) hd3 (ruleSuffix_ex hrs)
          · rw [if_neg hc3] at h; cases h

/-! ### Dot-splitting lemmas -/

theorem okb_ne_dot {l : List Char} :
    (chapterOKb l = true ∨ sectionOKb l = true ∨ ruleOKb l = true) →
    ∀ c ∈ l, c ≠ '.' := by
  intro h c hc
  have hparts : c ∈ l.takeWhile Char.isDigit ∨ c ∈ l.dropWhile Char.isDigit := by
    rw [← List.mem_append, List.takeWhile_append_dropWhile]
    exact hc
  rcases h with h | h | h
  · rw [chapterOKb, List.span_eq_take_drop] at h
    dsimp only at h
    rcases Bool.and_eq_true _ _ ▸ h with ⟨_, h2⟩
    rcases hparts with hp | hp
    · exact digit_ne_dot (List.mem_takeWhile_imp hp)
    · cases hdw : l.dropWhile Char.isDigit with
      | nil => rw [hdw] at hp; cases hp
      | cons a tail =>
        rw [hdw] at h2 hp
        cases tail with
        | nil =>
          rw [List.mem_singleton.mp hp]
          exact upperAZ_ne_dot h2
        | cons b tail2 => cases h2
  · rcases Bool.and_eq_true _ _ ▸ h with ⟨_, h2⟩
    have := List.all_eq_true.mp h2 c hc
    exact digit_ne_dot this
  · rw [ruleOKb, List.span_eq_take_drop] at h
    dsimp only at h
    rcases Bool.and_eq_true _ _ ▸ h with ⟨_, h2⟩
    rcases hparts with hp | hp
    · exact digit_ne_dot (List.mem_takeWhile_imp hp)
    · cases hdw : l.dropWhile Char.isDigit with
      | nil => rw [hdw] at hp; cases hp
      | cons a tail =>
        rw [hdw] at h2 hp
        cases tail with
        | nil =>
          rw [List.mem_singleton.mp hp]
          exact upperAZ_ne_dot h2
        | cons b tail2 =>
          cases tail2 with
          | nil =>
            rcases Bool.and_eq_true _ _ ▸ h2 with ⟨hdash, hub⟩
            rcases List.mem_cons.mp hp with rfl | hp2
            · rw [of_decide_eq_true hdash]; decide
            · rw [List.mem_singleton.mp hp2]
              exact upperAZ_ne_dot hub
          | cons d tail3 => cases h2

theorem splitChars_ne_nil (l : List Char) : splitChars l ≠ [] := by
  cases l with
  | nil => simp [splitChars]
  | cons c rest =>
    rw [splitChars]
    by_cases hc : c = '.'
    · rw [if_pos hc]; simp
    · rw [if_neg hc]
      cases splitChars rest with
      | nil => simp
      | cons g gs => simp

theorem splitChars_append {x : List Char} (hx : ∀ c ∈ x, c ≠ '.') :
    ∀ (l : List Char) (g : List Char) (gs : List (List Char)),
      splitChars l = g :: gs → splitChars (x ++ l) = (x ++ g) :: gs := by
  induction x with
  | nil => intro l g gs h; simpa using h
  | cons c x' ih =>
    intro l g gs h
    have hc : c ≠ '.' := hx c (List.mem_cons.mpr (Or.inl rfl))
    have ih' := ih (fun a ha => hx a (List.mem_cons.mpr (Or.inr ha))) l g gs h
    rw [List.cons_append, splitChars, if_neg hc, ih']
    rfl

theorem splitChars_no_dot {x : List Char} (hx : ∀ c ∈ x, c ≠ '.') :
    splitChars x = [x] := by
  have := splitChars_append hx [] [] [] rfl
  simpa using this

theorem splitDots_mkId (g : IdGroups)
    (h1 : ∀ c ∈ g.chapter, c ≠ '.') (h2 : ∀ c ∈ g.sec, c ≠ '.')
    (h3 : ∀ c ∈ g.rule, c ≠ '.') :
    splitDots (mkId g) =
      [String.mk g.chapter, String.mk g.sec, String.mk g.rule] := by
  have hr : splitChars g.rule = [g.rule] := splitChars_no_dot h3
  have hsec : splitChars (g.sec ++ '.' :: g.rule) = g.sec :: [g.rule] := by
    refine splitChars_append h2 ('.' :: g.rule) [] [g.rule] ?_ |>.trans ?_
    · rw [splitChars, if_pos rfl, hr]
    · simp
  have hch : splitChars (g.chapter ++ '.' :: (g.sec ++ '.' :: g.rule)) =
      g.chapter :: g.sec :: [g.rule] := by
    refine splitChars_append h1 ('.' :: (g.sec ++ '.' :: g.rule)) [] (g.sec :: [g.rule]) ?_
      |>.trans ?_
    · rw [splitChars, if_pos rfl, hsec]
    · simp
  rw [splitDots]
  have hdata : (mkId g).data = g.chapter ++ '.' :: (g.sec ++ '.' :: g.rule) := by
    simp [mkId]
  rw [hdata, hch]
  rfl

theorem sortKeySafe_ne_none {r : RecR} {ch se ru : List Char}
    (hsplit : splitDots r.id = [String.mk ch, String.mk se, String.mk ru])
    (hse : sectionOKb se = true) : sortKeySafe r ≠ none := by
  rw [sortKeySafe, hsplit]
  dsimp only
  have hdata : (String.mk se).data = se := rfl
  have hne : se ≠ [] := by
    intro hcon
    rw [hcon] at hse
    cases hse
  rcases Bool.and_eq_true _ _ ▸ hse with ⟨_, hall⟩
  rw [parseIntPy, if_pos ⟨by simpa [hdata] using hne, by
    rw [hdata]; exact hall⟩]
  simp

/-! ### Anchor and record provenance (claim C10) -/

theorem seekId_rule {pi : Nat} {ll : ℚ} {p : Params} {t : Tok} :
    ∀ {toks : List Tok} {a : Anchor}, seekId pi ll p t toks = some a →
      ∃ g : IdGroups, (∃ s, matchIdToken s = some g) ∧
        a.id = mkId g ∧ a.kind = "rule" := by
  intro toks
  induction toks with
  | nil => intro a h; cases h
  | cons cand rest ih =>
    intro a h
    rw [seekId] at h
    by_cases hb : qabs (cand.doctop - t.doctop) ≤ p.yTol
    · rw [if_pos hb] at h
      by_cases hx : ll ≤ cand.x0
      · rw [if_pos hx] at h; cases h
      · rw [if_neg hx] at h
        cases hm : matchIdToken cand.text.data with
        | none => rw [hm] at h; exact ih h
        | some g =>
          rw [hm] at h
          injection h with h1
          exact ⟨g, ⟨cand.text.data, hm⟩, by rw [← h1]; rfl, by rw [← h1]; rfl⟩
    · rw [if_neg hb] at h; cases h

theorem scanToks_rule {pi : Nat} {ll : ℚ} {p : Params} :
    ∀ {toks : List Tok} {a : Anchor}, a ∈ scanToks pi ll p toks →
      a.kind = "rule" →
      ∃ g : IdGroups, (∃ s, matchIdToken s = some g) ∧ a.id = mkId g := by
  intro toks
  induction toks with
  | nil => intro a h _; cases h
  | cons t rest ih =>
    intro a h hk
    rw [scanToks] at h
    by_cases h1 : ll ≤ t.x0
    · rw [if_pos h1] at h; exact ih h hk
    · rw [if_neg h1] at h
      by_cases h2 : cassMatch t.text = true
      · rw [if_pos h2] at h
        cases hs : seekId pi ll p t rest with
        | none => rw [hs] at h; exact ih h hk
        | some a' =>
          rw [hs] at h
          rcases List.mem_cons.mp h with rfl | hmem
          · obtain ⟨g, hg, hid, _⟩ := seekId_rule hs
            exact ⟨g, hg, hid⟩
          · exact ih hmem hk
      · rw [if_neg h2] at h
        by_cases h3 : (sectionMatch t.text && decide (t.x0 < ll)) = true
        · rw [if_pos h3] at h
          rcases List.mem_cons.mp h with rfl | hmem
          · simp at hk
          · exact ih hmem hk
        · rw [if_neg h3] at h
          exact ih h hk

theorem detectAnchors_rule {pages : List Page} {p : Params} {a : Anchor}
    (ha : a ∈ detectAnchors pages p) (hk : a.kind = "rule") :
    ∃ g : IdGroups, (∃ s, matchIdToken s = some g) ∧ a.id = mkId g := by
  rw [detectAnchors] at ha
  obtain ⟨l, hl, hal⟩ := List.mem_flatten.mp (mem_sortStable.mp ha)
  obtain ⟨pg, _, rfl⟩ := List.mem_map.mp hl
  exact scanToks_rule hal hk

theorem anchorCandidate_inv {pageLines : List (List Line)} {widths : List ℚ}
    {p : Params} {a : Anchor} {next : Option Anchor} {r : RecR}
    (h : anchorCandidate pageLines widths p a next = some r) :
    a.kind = "rule" ∧ r.id = a.id := by
  rw [anchorCandidate] at h
  by_cases hk : a.kind = "rule"
  · rw [if_pos hk] at h
    dsimp only at h
    by_cases hlen : (stripPy (reflowParagraphsFromLines
        (rawLinesFor pageLines widths p a next))).length < p.minBodyLen
    · rw [if_pos hlen] at h; cases h
    · rw [if_neg hlen] at h
      injection h with h1
      exact ⟨hk, by rw [← h1]; rfl⟩
  · rw [if_neg hk] at h; cases h

theorem mem_harvestRecsGo {pageLines : List (List Line)} {widths : List ℚ}
    {p : Params} : ∀ {as : List Anchor} {r : RecR},
    r ∈ harvestRecsGo pageLines widths p as →
    ∃ a next, a ∈ as ∧ anchorCandidate pageLines widths p a next = some r := by
  intro as
  induction as with
  | nil => intro r h; cases h
  | cons a rest ih =>
    intro r h
    rw [harvestRecsGo] at h
    rcases List.mem_append.mp h with h1 | h2
    · cases hc : anchorCandidate pageLines widths p a rest.head? with
      | none => rw [hc] at h1; cases h1
      | some r' =>
        rw [hc] at h1
        rcases List.mem_singleton.mp h1 with rfl
        exact ⟨a, rest.head?, List.mem_cons.mpr (Or.inl rfl), hc⟩
    · obtain ⟨a', next', ha', hc'⟩ := ih h2
      exact ⟨a', next', List.mem_cons.mpr (Or.inr ha'), hc'⟩

theorem mem_allStream {p : Params} {files : List FileInput} {r : RecR}
    (h : r ∈ allStream p files) :
    ∃ pages, FileInput.present pages ∈ files ∧
      r ∈ harvestRecs pages (detectAnchors pages p) p := by
  rw [allStream] at h
  obtain ⟨l, hl, hr⟩ := List.mem_flatten.mp h
  obtain ⟨f, hf, rfl⟩ := List.mem_map.mp hl
  cases f with
  | missing => cases hr
  | present pages => exact ⟨pages, hf, hr⟩

/-! ### Claim C10 -/

/-- Claim C10: every record the pipeline emits has an id of exactly three
dot-separated segments matching the identifier grammar (digit chapter with
optional capital, digit section, digit rule with optional capital or
hyphen-capital suffix), so `sort_key` never raises on pipeline-produced
records. -/
theorem c10_sort_key_total (p : Params) (files : List FileInput) :
    ∀ r ∈ (mainRun p files).items,
      (∃ ch se ru : List Char,
        splitDots r.id = [String.mk ch, String.mk se, String.mk ru] ∧
        chapterOKb ch = true ∧ sectionOKb se = true ∧ ruleOKb ru = true) ∧
      sortKeySafe r ≠ none := by
  intro r hr
  have hgood : GoodMap ((processFiles p files ([], [])).1) (allStream p files) := by
    have := good_processFiles p files [] [] [] good_nil
    simpa using this
  have hitems : (mainRun p files).items =
      sortStable recLt (((processFiles p files ([], [])).1).map Prod.snd) := rfl
  rw [hitems] at hr
  obtain ⟨e, he, heq⟩ := List.mem_map.mp (mem_sortStable.mp hr)
  obtain ⟨hmem, _⟩ := hgood.2.2.1 e he
  rw [heq] at hmem
  obtain ⟨pages, _, hrec⟩ := mem_allStream hmem
  rw [harvestRecs] at hrec
  obtain ⟨a, next, ha, hcand⟩ := mem_harvestRecsGo hrec
  obtain ⟨hk, hid⟩ := anchorCandidate_inv hcand
  obtain ⟨g, ⟨s, hmg⟩, hidg⟩ := detectAnchors_rule ha hk
  obtain ⟨hch, hse, hru⟩ := matchIdToken_groups hmg
  have hrid : r.id = mkId g := by rw [hid, hidg]
  have hsplit : splitDots r.id =
      [String.mk g.chapter, String.mk g.sec, String.mk g.rule] := by
    rw [hrid]
    exact splitDots_mkId g (okb_ne_dot (Or.inl hch)) (okb_ne_dot (Or.inr (Or.inl hse)))
      (okb_ne_dot (Or.inr (Or.inr hru)))
  exact ⟨⟨g.chapter, g.sec, g.rule, hsplit, hch, hse, hru⟩,
    sortKeySafe_ne_none hsplit hse⟩

/-- Witness for C10 at the concrete single-file run. -/
theorem c10_witness :
    recMain ∈ (mainRun fixParams [FileInput.present [pgMain]]).items ∧
    splitDots recMain.id = ["1", "2", "2R"] ∧
    sortKeySafe recMain ≠ none :=
  ⟨by decide, by decide,
   ((c10_sort_key_total fixParams [FileInput.present [pgMain]]) recMain (by decide)).2⟩

end CassExtract
